import Mathlib

/-!
# A doubly linked list over an explicit heap

Shallow embedding of `list.go` (package `list`): the container `List` with its
`GenericLink` nodes, and the sequential operations on it.

Modelling conventions.

* Go pointers `*GenericLink` are `Ptr := Option Nat`: `none` is `nil`, `some a`
  is the address `a` of a node in the heap. The heap is the list of all nodes
  ever allocated; `&GenericLink{..}` appends a node and yields its index.
* A Go `interface{}` value is `Any α := Option α`, `none` being the nil
  interface value.
* The struct `List` of the source is called `LinkedList` here (the name `List`
  is taken); every method takes the heap and the struct and returns the new
  heap and struct (explicit state passing).
* A run-time panic is an `Except.error`: dereferencing `nil`, indexing a slice
  out of range, `make` with a negative length. A loop that walks the chain
  until `nil` carries a fuel argument and reports `Fault.outOfFuel` when it
  is used up; loops whose condition bounds the counter get their fuel from
  that bound.
* Go `int` is modelled by unbounded integers: a counter of the source only
  overflows on a chain of 2^63 nodes, which no address space holds. A loop
  counter `i` starts at 0 and only grows, so it is a natural number, cast to
  an integer where the source compares it with an `int` argument.

* A function argument `fn` of the source is a pure total function: it returns
  a value and has no effect on the list.
* The methods `ParallelForEach` and `ParallelMap` are not embedded: what they
  do depends on how their goroutines interleave.

The file has two parts: first the definitions (the embedding, the call
sequences and observers that the statements use, and the chain invariant used
in the proofs), then the theorems.
-/

namespace GoList

/-- A Go `interface{}` value; `none` is the nil interface value. -/
abbrev Any (α : Type) := Option α

/-- A Go `*GenericLink`; `none` is the nil pointer. -/
abbrev Ptr := Option Nat

/-- Run-time failures of the embedded code. -/
inductive Fault where
  | nilDeref
  | invalidAddr
  | indexOutOfRange
  | makeSliceLen
  | outOfFuel
deriving DecidableEq

/-- The struct `GenericLink` of `list.go`. -/
structure GenericLink (α : Type) where
  Value : Any α
  Next : Ptr
  Previous : Ptr
deriving DecidableEq

/-- The heap: every node allocated so far, addressed by position. -/
abbrev Heap (α : Type) := List (GenericLink α)

/-- The struct `List` of `list.go`. -/
structure LinkedList where
  root : Ptr
  last : Ptr
  Length : Int
deriving DecidableEq

/-- A Go slice `[]interface{}`: the nil slice, or a slice with a backing array. -/
inductive AnySlice (α : Type) where
  | nilSlice
  | backed (elems : List (Any α))
deriving DecidableEq

/-- The zero value `List{}` (what `&List{}` points to). -/
def zeroList : LinkedList := { root := none, last := none, Length := 0 }

variable {α : Type}

/-- Reading through a pointer: `*p`. -/
def deref (h : Heap α) : Ptr → Except Fault (GenericLink α)
  | none => .error .nilDeref
  | some a =>
    match h[a]? with
    | some nd => .ok nd
    | none => .error .invalidAddr

/-- Writing a field through a pointer: `p.field = x`, given as the update `f`. -/
def store (h : Heap α) (p : Ptr) (f : GenericLink α → GenericLink α) :
    Except Fault (Heap α) :=
  match p with
  | none => .error .nilDeref
  | some a =>
    match h[a]? with
    | some nd => .ok (h.set a (f nd))
    | none => .error .invalidAddr

/-- Allocation `&GenericLink{Value: val}`: the new heap and the new address. -/
def alloc (h : Heap α) (val : Any α) : Heap α × Nat :=
  (h ++ [{ Value := val, Next := none, Previous := none }], h.length)

/-- Method `func (list *List) Push(val interface{})`. -/
def Push (h : Heap α) (list : LinkedList) (val : Any α) :
    Except Fault (Heap α × LinkedList) :=
  let (h0, node) := alloc h val
  if list.root = none then
    .ok (h0, { root := some node, last := some node, Length := 1 })
  else do
    let h1 ← store h0 (some node) (fun nd => { nd with Previous := list.last })
    let h2 ← store h1 list.last (fun nd => { nd with Next := some node })
    .ok (h2, { list with last := some node, Length := list.Length + 1 })

/-- Method `func (list *List) Pop() interface{}`. -/
def Pop (h : Heap α) (list : LinkedList) :
    Except Fault (Any α × Heap α × LinkedList) :=
  if list.Length = 0 then
    .ok (none, h, list)
  else if list.Length = 1 then do
    let node := list.last
    let nd ← deref h node
    .ok (nd.Value, h, { root := none, last := none, Length := 0 })
  else do
    let node := list.last
    let lastNd ← deref h list.last
    let list1 : LinkedList := { list with last := lastNd.Previous }
    let h1 ← store h list1.last (fun nd => { nd with Next := none })
    let list2 : LinkedList := { list1 with Length := list1.Length - 1 }
    let h2 ← store h1 node (fun nd => { nd with Previous := none })
    let nd ← deref h2 node
    .ok (nd.Value, h2, list2)

/-- Method `func (list *List) Queue(val interface{})`. -/
def Queue (h : Heap α) (list : LinkedList) (val : Any α) :
    Except Fault (Heap α × LinkedList) :=
  let (h0, node) := alloc h val
  if list.root = none then
    .ok (h0, { root := some node, last := some node, Length := 1 })
  else do
    let h1 ← store h0 (some node) (fun nd => { nd with Next := list.root })
    let h2 ← store h1 list.root (fun nd => { nd with Previous := some node })
    .ok (h2, { list with root := some node, Length := list.Length + 1 })

/-- Method `func (list *List) Dequeue() interface{}`. -/
def Dequeue (h : Heap α) (list : LinkedList) :
    Except Fault (Any α × Heap α × LinkedList) :=
  if list.Length = 0 then
    .ok (none, h, list)
  else if list.Length = 1 then do
    let node := list.root
    let nd ← deref h node
    .ok (nd.Value, h, { root := none, last := none, Length := 0 })
  else do
    let node := list.root
    let rootNd ← deref h list.root
    let list1 : LinkedList := { list with root := rootNd.Next }
    let h1 ← store h list1.root (fun nd => { nd with Previous := none })
    let list2 : LinkedList := { list1 with Length := list1.Length - 1 }
    let h2 ← store h1 node (fun nd => { nd with Next := none })
    let nd ← deref h2 node
    .ok (nd.Value, h2, list2)

/-- The loop of `Enumerate`: `for node != nil { res[i] = node.Value; node = node.Next; i++ }`. -/
def enumerateLoop (h : Heap α) :
    Nat → List (Any α) → Nat → Ptr → Except Fault (List (Any α))
  | _, res, _, none => .ok res
  | 0, _, _, some _ => .error .outOfFuel
  | fuel + 1, res, i, some a => do
    let nd ← deref h (some a)
    if i < res.length then
      enumerateLoop h fuel (res.set i nd.Value) (i + 1) nd.Next
    else
      .error .indexOutOfRange

/-- Method `func (list *List) Enumerate() []interface{}`. The body of the loop panics
once `i` reaches `len(res) = list.Length`, so `list.Length + 1` rounds are all
the loop can ever run. -/
def Enumerate (h : Heap α) (list : LinkedList) : Except Fault (AnySlice α) :=
  if list.Length = 0 then
    .ok (.backed [])
  else if list.Length < 0 then
    .error .makeSliceLen
  else do
    let res ← enumerateLoop h (list.Length.toNat + 1)
      (List.replicate list.Length.toNat none) 0 list.root
    .ok (.backed res)

/-- The loop of `Slice`: `for node != nil && i < end { if i >= start { res.Push(node.Value) }; node = node.Next; i++ }`. -/
def sliceLoop (start stop : Int) :
    Nat → Heap α → LinkedList → Nat → Ptr → Except Fault (Heap α × LinkedList)
  | _, h, res, _, none => .ok (h, res)
  | fuel, h, res, i, some a =>
    if (i : Int) < stop then
      match fuel with
      | 0 => .error .outOfFuel
      | fuel + 1 => do
        let nd ← deref h (some a)
        let (h1, res1) ← (if start ≤ (i : Int) then Push h res nd.Value else .ok (h, res))
        let nd1 ← deref h1 (some a)
        sliceLoop start stop fuel h1 res1 (i + 1) nd1.Next
    else
      .ok (h, res)

/-- Method `func (list *List) Slice(start, end int) *List`; the loop runs while
`i < end`, at most `end` rounds. -/
def Slice (h : Heap α) (list : LinkedList) (start stop : Int) :
    Except Fault (Heap α × LinkedList) :=
  let start := if start < 0 then 0 else start
  sliceLoop start stop stop.toNat h zeroList 0 list.root

/-- The loop of `First`: `for node != nil && i < n { res.Push(node.Value); node = node.Next; i++ }`. -/
def firstLoop (n : Int) :
    Nat → Heap α → LinkedList → Nat → Ptr → Except Fault (Heap α × LinkedList)
  | _, h, res, _, none => .ok (h, res)
  | fuel, h, res, i, some a =>
    if (i : Int) < n then
      match fuel with
      | 0 => .error .outOfFuel
      | fuel + 1 => do
        let nd ← deref h (some a)
        let (h1, res1) ← Push h res nd.Value
        let nd1 ← deref h1 (some a)
        firstLoop n fuel h1 res1 (i + 1) nd1.Next
    else
      .ok (h, res)

/-- Method `func (list *List) First(n int) *List`. -/
def First (h : Heap α) (list : LinkedList) (n : Int) :
    Except Fault (Heap α × LinkedList) :=
  firstLoop n n.toNat h zeroList 0 list.root

/-- The loop of `Last`: `for node != nil && i < n { res.Push(node.Value); node = node.Previous; i++ }`. -/
def lastLoop (n : Int) :
    Nat → Heap α → LinkedList → Nat → Ptr → Except Fault (Heap α × LinkedList)
  | _, h, res, _, none => .ok (h, res)
  | fuel, h, res, i, some a =>
    if (i : Int) < n then
      match fuel with
      | 0 => .error .outOfFuel
      | fuel + 1 => do
        let nd ← deref h (some a)
        let (h1, res1) ← Push h res nd.Value
        let nd1 ← deref h1 (some a)
        lastLoop n fuel h1 res1 (i + 1) nd1.Previous
    else
      .ok (h, res)

/-- Method `func (list *List) Last(n int) *List`. -/
def Last (h : Heap α) (list : LinkedList) (n : Int) :
    Except Fault (Heap α × LinkedList) :=
  lastLoop n n.toNat h zeroList 0 list.last

/-- First statement of the body of `RemoveAt` once `i == index`:
`if node.Next != nil { node.Next.Previous = node.Previous } else { list.last = node.Previous }`. -/
def unlinkForward (h : Heap α) (list : LinkedList) (node : Ptr) :
    Except Fault (Heap α × LinkedList) := do
  let nd ← deref h node
  if nd.Next ≠ none then do
    let h1 ← store h nd.Next (fun x => { x with Previous := nd.Previous })
    .ok (h1, list)
  else
    .ok (h, { list with last := nd.Previous })

/-- Second statement of the body of `RemoveAt` once `i == index`:
`if node.Previous != nil { node.Previous.Next = node.Next } else { list.root = node.Next }`. -/
def unlinkBackward (h : Heap α) (list : LinkedList) (node : Ptr) :
    Except Fault (Heap α × LinkedList) := do
  let nd ← deref h node
  if nd.Previous ≠ none then do
    let h1 ← store h nd.Previous (fun x => { x with Next := nd.Next })
    .ok (h1, list)
  else
    .ok (h, { list with root := nd.Next })

/-- The body of `RemoveAt` once `i == index`: the two relinking statements, then
`node.Next = nil; node.Previous = nil; return true`. No statement touches
`list.Length`. -/
def unlink (h : Heap α) (list : LinkedList) (node : Ptr) :
    Except Fault (Bool × Heap α × LinkedList) := do
  let (h1, list1) ← unlinkForward h list node
  let (h2, list2) ← unlinkBackward h1 list1 node
  let h3 ← store h2 node (fun x => { x with Next := none })
  let h4 ← store h3 node (fun x => { x with Previous := none })
  .ok (true, h4, list2)

/-- The loop of `RemoveAt`:
`for node != nil { if i == index { ...; return true }; node = node.Next; i++ }; return false`. -/
def removeAtLoop (h : Heap α) (list : LinkedList) (index : Int) :
    Nat → Nat → Ptr → Except Fault (Bool × Heap α × LinkedList)
  | _, _, none => .ok (false, h, list)
  | 0, _, some _ => .error .outOfFuel
  | fuel + 1, i, some a =>
    if (i : Int) = index then
      unlink h list (some a)
    else do
      let nd ← deref h (some a)
      removeAtLoop h list index fuel (i + 1) nd.Next

/-- Method `func (list *List) RemoveAt(index int) bool`. -/
def RemoveAt (fuel : Nat) (h : Heap α) (list : LinkedList) (index : Int) :
    Except Fault (Bool × Heap α × LinkedList) :=
  removeAtLoop h list index fuel 0 list.root

/-- The loop of `ValueAt`:
`for node != nil { if i == index { return node.Value }; node = node.Next; i++ }; return nil`. -/
def valueAtLoop (h : Heap α) (index : Int) : Nat → Nat → Ptr → Except Fault (Any α)
  | _, _, none => .ok none
  | 0, _, some _ => .error .outOfFuel
  | fuel + 1, i, some a =>
    if (i : Int) = index then do
      let nd ← deref h (some a)
      .ok nd.Value
    else do
      let nd ← deref h (some a)
      valueAtLoop h index fuel (i + 1) nd.Next

/-- Method `func (list *List) ValueAt(index int) interface{}`; it writes nothing,
so it returns the value only. -/
def ValueAt (fuel : Nat) (h : Heap α) (list : LinkedList) (index : Int) :
    Except Fault (Any α) :=
  valueAtLoop h index fuel 0 list.root

/-- The loop of `Clear`:
`for node != nil { prev := node.Previous; node.Next = nil; node.Previous = nil; node = prev }`. -/
def clearLoop : Nat → Heap α → Ptr → Except Fault (Heap α)
  | _, h, none => .ok h
  | 0, _, some _ => .error .outOfFuel
  | fuel + 1, h, some a => do
    let nd ← deref h (some a)
    let prev := nd.Previous
    let h1 ← store h (some a) (fun x => { x with Next := none })
    let h2 ← store h1 (some a) (fun x => { x with Previous := none })
    clearLoop fuel h2 prev

/-- Method `func (list *List) Clear()`: the loop from `list.last`, then
`list.Length = 0`. No statement writes `list.root` or `list.last`. -/
def Clear (fuel : Nat) (h : Heap α) (list : LinkedList) :
    Except Fault (Heap α × LinkedList) := do
  let h1 ← clearLoop fuel h list.last
  .ok (h1, { list with Length := 0 })

/-- The loop of `Map`:
`for node != nil { val := fn(node.Value, i); res.Push(val); node = node.Next; i++ }`. -/
def mapLoop (fn : Any α → Int → Any α) :
    Nat → Heap α → LinkedList → Nat → Ptr → Except Fault (Heap α × LinkedList)
  | _, h, res, _, none => .ok (h, res)
  | 0, _, _, _, some _ => .error .outOfFuel
  | fuel + 1, h, res, i, some a => do
    let nd ← deref h (some a)
    let val := fn nd.Value (i : Int)
    let (h1, res1) ← Push h res val
    let nd1 ← deref h1 (some a)
    mapLoop fn fuel h1 res1 (i + 1) nd1.Next

/-- Method `func (list *List) Map(fn func(val interface{}, idx int) interface{}) *List`. -/
def Map (fuel : Nat) (fn : Any α → Int → Any α) (h : Heap α) (list : LinkedList) :
    Except Fault (Heap α × LinkedList) :=
  mapLoop fn fuel h zeroList 0 list.root

/-- The loop of `Filter`:
`for node != nil { val := fn(node.Value, i); if val { res.Push(node.Value) }; node = node.Next; i++ }`. -/
def filterLoop (fn : Any α → Int → Bool) :
    Nat → Heap α → LinkedList → Nat → Ptr → Except Fault (Heap α × LinkedList)
  | _, h, res, _, none => .ok (h, res)
  | 0, _, _, _, some _ => .error .outOfFuel
  | fuel + 1, h, res, i, some a => do
    let nd ← deref h (some a)
    let val := fn nd.Value (i : Int)
    let (h1, res1) ← (if val then Push h res nd.Value else .ok (h, res))
    let nd1 ← deref h1 (some a)
    filterLoop fn fuel h1 res1 (i + 1) nd1.Next

/-- Method `func (list *List) Filter(fn func(val interface{}, idx int) bool) *List`. -/
def Filter (fuel : Nat) (fn : Any α → Int → Bool) (h : Heap α) (list : LinkedList) :
    Except Fault (Heap α × LinkedList) :=
  filterLoop fn fuel h zeroList 0 list.root

/-- The loop of `Reduce`:
`for node != nil { res = fn(node.Value, i, res); node = node.Next; i++ }`. -/
def reduceLoop (h : Heap α) (fn : Any α → Int → Any α → Any α) :
    Nat → Any α → Nat → Ptr → Except Fault (Any α)
  | _, res, _, none => .ok res
  | 0, _, _, some _ => .error .outOfFuel
  | fuel + 1, res, i, some a => do
    let nd ← deref h (some a)
    reduceLoop h fn fuel (fn nd.Value (i : Int) res) (i + 1) nd.Next

/-- Method `func (list *List) Reduce(fn, init interface{}) interface{}`; it writes
nothing, so it returns the value only. -/
def Reduce (fuel : Nat) (fn : Any α → Int → Any α → Any α) (init : Any α) (h : Heap α)
    (list : LinkedList) : Except Fault (Any α) :=
  reduceLoop h fn fuel init 0 list.root

/-! ## Chains of cells -/

/-- A cell of a chain: the address of a node and the value it carries. -/
abbrev Cell (α : Type) := Nat × Any α

/-- Address of the first cell, or `d` when there is none. -/
def firstOr : List (Cell α) → Ptr → Ptr
  | [], d => d
  | c :: _, _ => some c.1

/-- Address of the last cell, or `d` when there is none. -/
def lastOr : List (Cell α) → Ptr → Ptr
  | [], d => d
  | c :: rest, _ => lastOr rest (some c.1)

/-- In heap `h` the cells `cs` form a doubly linked segment: each node carries
its value, points forward to the next cell (the last one to `nxt`) and backward
to the previous cell (the first one to `prev`). -/
def Seg (h : Heap α) : Ptr → List (Cell α) → Ptr → Prop
  | _, [], _ => True
  | prev, c :: rest, nxt =>
    h[c.1]? = some { Value := c.2, Next := firstOr rest nxt, Previous := prev } ∧
      Seg h (some c.1) rest nxt

/-- The list struct `l` heads a well-formed chain through the cells `cs` of `h`. -/
structure Chain (h : Heap α) (l : LinkedList) (cs : List (Cell α)) : Prop where
  seg : Seg h none cs none
  root : l.root = firstOr cs none
  last : l.last = lastOr cs none
  nodup : (cs.map Prod.fst).Nodup

/-- The list struct `l` represents the cells `cs`: a well-formed chain whose
length is the recorded `Length`. -/
def Rep (h : Heap α) (l : LinkedList) (cs : List (Cell α)) : Prop :=
  Chain h l cs ∧ l.Length = cs.length


/-! ## Call sequences and observers used to state the properties -/

/-- The calls `Push(v1)`, ..., `Push(vn)` in turn. -/
def pushAll : Heap α → LinkedList → List (Any α) → Except Fault (Heap α × LinkedList)
  | h, l, [] => .ok (h, l)
  | h, l, v :: vs => do
    let (h1, l1) ← Push h l v
    pushAll h1 l1 vs

/-- The calls `Queue(v1)`, ..., `Queue(vn)` in turn. -/
def queueAll : Heap α → LinkedList → List (Any α) → Except Fault (Heap α × LinkedList)
  | h, l, [] => .ok (h, l)
  | h, l, v :: vs => do
    let (h1, l1) ← Queue h l v
    queueAll h1 l1 vs

/-- The first `n` successive calls of `Pop`: each returned value with the
`Length` read right after the call, then the final heap and list. -/
def popN : Nat → Heap α → LinkedList → Except Fault (List (Any α × Int) × Heap α × LinkedList)
  | 0, h, l => .ok ([], h, l)
  | n + 1, h, l => do
    let (v, h1, l1) ← Pop h l
    let (tr, h2, l2) ← popN n h1 l1
    .ok ((v, l1.Length) :: tr, h2, l2)

/-- The first `n` successive calls of `Dequeue`: each returned value with the
`Length` read right after the call, then the final heap and list. -/
def dequeueN : Nat → Heap α → LinkedList →
    Except Fault (List (Any α × Int) × Heap α × LinkedList)
  | 0, h, l => .ok ([], h, l)
  | n + 1, h, l => do
    let (v, h1, l1) ← Dequeue h l
    let (tr, h2, l2) ← dequeueN n h1 l1
    .ok ((v, l1.Length) :: tr, h2, l2)

/-- The lengths `n-1, ..., 1, 0` read after each of `n` removals from a list of `n`. -/
def countdown (n : Nat) : List Int :=
  (List.range n).reverse.map Int.ofNat

/-- Values met when following `Next` from `p` until nil. -/
def walkNext (h : Heap α) : Nat → Ptr → Except Fault (List (Any α))
  | _, none => .ok []
  | 0, some _ => .error .outOfFuel
  | fuel + 1, some a => do
    let nd ← deref h (some a)
    let rest ← walkNext h fuel nd.Next
    .ok (nd.Value :: rest)

/-- Values met when following `Previous` from `p` until nil. -/
def walkPrev (h : Heap α) : Nat → Ptr → Except Fault (List (Any α))
  | _, none => .ok []
  | 0, some _ => .error .outOfFuel
  | fuel + 1, some a => do
    let nd ← deref h (some a)
    let rest ← walkPrev h fuel nd.Previous
    .ok (nd.Value :: rest)


/-! ## Reasoning about the heap -/

@[simp]
theorem ok_bind {ε β γ : Type} (a : β) (f : β → Except ε γ) :
    (Except.ok a >>= f) = f a := rfl

@[simp]
theorem error_bind {ε β γ : Type} (e : ε) (f : β → Except ε γ) :
    (Except.error e >>= f) = Except.error e := rfl

theorem deref_some {h : Heap α} {a : Nat} {nd : GenericLink α} (hx : h[a]? = some nd) :
    deref h (some a) = .ok nd := by
  simp [deref, hx]

theorem store_some {h : Heap α} {a : Nat} {nd : GenericLink α} (hx : h[a]? = some nd)
    (f : GenericLink α → GenericLink α) :
    store h (some a) f = .ok (h.set a (f nd)) := by
  simp [store, hx]

theorem lt_of_get {h : Heap α} {a : Nat} {nd : GenericLink α} (hx : h[a]? = some nd) :
    a < h.length := by
  by_contra hc
  rw [List.getElem?_eq_none (by omega)] at hx
  cases hx

theorem get_set_same {h : Heap α} {a : Nat} {nd : GenericLink α} (hx : a < h.length) :
    (h.set a nd)[a]? = some nd := by
  simp [List.getElem?_set, hx]

theorem get_set_other {h : Heap α} {a b : Nat} (nd : GenericLink α) (hne : a ≠ b) :
    (h.set a nd)[b]? = h[b]? := by
  simp [List.getElem?_set, hne]

theorem get_alloc_new (h : Heap α) (nd : GenericLink α) :
    (h ++ [nd])[h.length]? = some nd := by
  simp

theorem get_alloc_old {h : Heap α} {a : Nat} (nd : GenericLink α) (hx : a < h.length) :
    (h ++ [nd])[a]? = h[a]? := by
  simp [List.getElem?_append_left hx]

@[simp]
theorem firstOr_nil (d : Ptr) : firstOr ([] : List (Cell α)) d = d := rfl
@[simp]
theorem firstOr_cons (c : Cell α) (cs : List (Cell α)) (d : Ptr) :
    firstOr (c :: cs) d = some c.1 := rfl
@[simp]
theorem lastOr_nil (d : Ptr) : lastOr ([] : List (Cell α)) d = d := rfl
@[simp]
theorem lastOr_cons (c : Cell α) (cs : List (Cell α)) (d : Ptr) :
    lastOr (c :: cs) d = lastOr cs (some c.1) := rfl

theorem firstOr_append (xs ys : List (Cell α)) (d : Ptr) :
    firstOr (xs ++ ys) d = firstOr xs (firstOr ys d) := by
  cases xs <;> simp

theorem lastOr_append (xs ys : List (Cell α)) (d : Ptr) :
    lastOr (xs ++ ys) d = lastOr ys (lastOr xs d) := by
  induction xs generalizing d with
  | nil => simp
  | cons c xs ih => simp [ih]

@[simp]
theorem lastOr_concat (xs : List (Cell α)) (c : Cell α) (d : Ptr) :
    lastOr (xs ++ [c]) d = some c.1 := by
  simp [lastOr_append]

theorem lastOr_cons_ne_none (c : Cell α) (cs : List (Cell α)) (d : Ptr) :
    lastOr (c :: cs) d ≠ none := by
  induction cs generalizing c with
  | nil => simp
  | cons c2 cs ih => simpa using ih c2

theorem seg_nil (h : Heap α) (prev nxt : Ptr) : Seg h prev ([] : List (Cell α)) nxt := trivial

theorem seg_cons {h : Heap α} (c : Cell α) (cs : List (Cell α)) (prev nxt : Ptr) :
    Seg h prev (c :: cs) nxt ↔
      h[c.1]? = some { Value := c.2, Next := firstOr cs nxt, Previous := prev } ∧
        Seg h (some c.1) cs nxt := Iff.rfl

theorem seg_append {h : Heap α} (xs ys : List (Cell α)) (prev nxt : Ptr) :
    Seg h prev (xs ++ ys) nxt ↔
      Seg h prev xs (firstOr ys nxt) ∧ Seg h (lastOr xs prev) ys nxt := by
  induction xs generalizing prev with
  | nil => simp [Seg]
  | cons c xs ih =>
    rw [List.cons_append, seg_cons, seg_cons, ih, lastOr_cons, firstOr_append, and_assoc]

theorem seg_frame {h h2 : Heap α} {cs : List (Cell α)} {prev nxt : Ptr}
    (hs : Seg h prev cs nxt) (hf : ∀ c ∈ cs, h2[c.1]? = h[c.1]?) :
    Seg h2 prev cs nxt := by
  induction cs generalizing prev with
  | nil => trivial
  | cons c cs ih =>
    refine ⟨?_, ih hs.2 (fun c2 hc2 => hf c2 (List.mem_cons_of_mem _ hc2))⟩
    rw [hf c (List.mem_cons_self _ _)]
    exact hs.1

theorem seg_lt {h : Heap α} {cs : List (Cell α)} {prev nxt : Ptr}
    (hs : Seg h prev cs nxt) : ∀ c ∈ cs, c.1 < h.length := by
  induction cs generalizing prev with
  | nil => simp
  | cons c cs ih =>
    intro c2 hc2
    rcases List.mem_cons.1 hc2 with rfl | hm
    · exact lt_of_get hs.1
    · exact ih hs.2 c2 hm

theorem chain_zero (h : Heap α) : Chain h zeroList ([] : List (Cell α)) :=
  ⟨trivial, rfl, rfl, by simp⟩

theorem rep_zero (h : Heap α) : Rep h zeroList ([] : List (Cell α)) :=
  ⟨chain_zero h, rfl⟩

theorem firstOr_concat_ne_none (xs : List (Cell α)) (c : Cell α) (d : Ptr) :
    firstOr (xs ++ [c]) d ≠ none := by
  cases xs <;> simp

/-- Calling `Push` on a well-formed chain appends one cell at the fresh address and
touches no other node than the old tail. -/
theorem push_chain {h : Heap α} {l : LinkedList} {cs : List (Cell α)}
    (hc : Chain h l cs) (v : Any α) :
    ∃ h2 l2, Push h l v = .ok (h2, l2) ∧ Chain h2 l2 (cs ++ [(h.length, v)]) ∧
      l2.Length = (if l.root = none then 1 else l.Length + 1) ∧ h2.length = h.length + 1 ∧
      (∀ a, a < h.length → some a ≠ l.last → h2[a]? = h[a]?) := by
  rcases List.eq_nil_or_concat cs with rfl | ⟨xs, c, hcs⟩
  · have hr : l.root = none := hc.root
    refine ⟨h ++ [{ Value := v, Next := none, Previous := none }],
      { root := some h.length, last := some h.length, Length := 1 },
      by simp [Push, alloc, hr], ⟨?_, rfl, rfl, by simp⟩, by simp [hr], by simp, ?_⟩
    · simp [Seg]
    · intro a ha _
      exact get_alloc_old _ ha
  · rw [List.concat_eq_append] at hcs
    subst hcs
    have hr : l.root ≠ none := by rw [hc.root]; exact firstOr_concat_ne_none _ _ _
    have hl : l.last = some c.1 := by rw [hc.last]; simp
    have hseg := (seg_append xs [c] none none).1 hc.seg
    have hxs : Seg h none xs (some c.1) := hseg.1
    have hcell : h[c.1]? = some { Value := c.2, Next := none, Previous := lastOr xs none } :=
      hseg.2.1
    have hclt : c.1 < h.length := lt_of_get hcell
    have hnd := hc.nodup
    rw [List.map_append, List.nodup_append] at hnd
    have hnotin : ∀ x ∈ xs, x.1 ≠ c.1 := by
      intro x hx he
      exact hnd.2.2 (List.mem_map_of_mem Prod.fst hx) (by simp [he])
    have hxlt := seg_lt hxs
    let n0 : GenericLink α := { Value := v, Next := none, Previous := none }
    let h0 : Heap α := h ++ [n0]
    let h1 : Heap α := h0.set h.length { n0 with Previous := some c.1 }
    let h2 : Heap α := h1.set c.1 { Value := c.2, Next := some h.length, Previous := lastOr xs none }
    have e0 : h0[h.length]? = some n0 := get_alloc_new h n0
    have e1 : h1[c.1]? = some { Value := c.2, Next := none, Previous := lastOr xs none } := by
      rw [get_set_other _ (by omega), get_alloc_old _ hclt]; exact hcell
    have hlen2 : h2.length = h.length + 1 := by simp [h2, h1, h0]
    have hold : ∀ a, a < h.length → a ≠ c.1 → h2[a]? = h[a]? := by
      intro a ha hne
      rw [get_set_other _ (Ne.symm hne), get_set_other _ (by omega), get_alloc_old _ ha]
    refine ⟨h2, { l with last := some h.length, Length := l.Length + 1 }, ?_, ⟨?_, ?_, ?_, ?_⟩,
      by simp [hr], hlen2, ?_⟩
    · simp only [Push, alloc, hr, if_false]
      rw [hl, store_some e0, ok_bind, store_some e1, ok_bind]
    · rw [List.append_assoc, seg_append]
      refine ⟨seg_frame hxs (fun x hx => hold x.1 (hxlt x hx) (hnotin x hx)), ?_, ?_, trivial⟩
      · show h2[c.1]? = _
        rw [get_set_same (by simp [h1, h0]; omega)]
        rfl
      · show h2[h.length]? = _
        rw [get_set_other _ (by omega), get_set_same (by simp [h0])]
        rfl
    · show l.root = _
      rw [hc.root, firstOr_append, firstOr_append]
      cases xs <;> simp
    · show some h.length = _
      rw [lastOr_append]
      simp
    · rw [List.map_append, List.nodup_append]
      refine ⟨hc.nodup, by simp, ?_⟩
      intro a ha hb
      simp only [List.map_cons, List.map_nil, List.mem_singleton] at hb
      obtain ⟨x, hx, rfl⟩ := List.mem_map.1 ha
      have := seg_lt hc.seg x hx
      omega
    · intro a ha hne
      exact hold a ha (fun he => hne (by rw [hl, he]))

theorem push_rep {h : Heap α} {l : LinkedList} {cs : List (Cell α)}
    (hc : Rep h l cs) (v : Any α) :
    ∃ h2 l2, Push h l v = .ok (h2, l2) ∧ Rep h2 l2 (cs ++ [(h.length, v)]) ∧
      h2.length = h.length + 1 ∧
      (∀ a, a < h.length → some a ≠ l.last → h2[a]? = h[a]?) := by
  obtain ⟨h2, l2, hp, hch, hlen, hsz, hfr⟩ := push_chain hc.1 v
  refine ⟨h2, l2, hp, ⟨hch, ?_⟩, hsz, hfr⟩
  rw [hlen, hc.2, hc.1.root]
  cases cs <;> simp

theorem nodup_concat_ne {xs : List (Cell α)} {c : Cell α}
    (hnd : ((xs ++ [c]).map Prod.fst).Nodup) : ∀ x ∈ xs, x.1 ≠ c.1 := by
  rw [List.map_append, List.nodup_append] at hnd
  intro x hx he
  exact hnd.2.2 (List.mem_map_of_mem Prod.fst hx) (by simp [he])

theorem nodup_cons_ne {xs : List (Cell α)} {c : Cell α}
    (hnd : ((c :: xs).map Prod.fst).Nodup) : ∀ x ∈ xs, x.1 ≠ c.1 := by
  rw [List.map_cons, List.nodup_cons] at hnd
  intro x hx he
  exact hnd.1 (by rw [← he]; exact List.mem_map_of_mem Prod.fst hx)

theorem nodup_of_concat {xs : List (Cell α)} {c : Cell α}
    (hnd : ((xs ++ [c]).map Prod.fst).Nodup) : (xs.map Prod.fst).Nodup := by
  rw [List.map_append, List.nodup_append] at hnd
  exact hnd.1

theorem nodup_of_cons {xs : List (Cell α)} {c : Cell α}
    (hnd : ((c :: xs).map Prod.fst).Nodup) : (xs.map Prod.fst).Nodup := by
  rw [List.map_cons, List.nodup_cons] at hnd
  exact hnd.2

/-- Calling `Pop` on an empty list (recorded length 0) changes nothing and returns nil. -/
theorem pop_empty (h : Heap α) (l : LinkedList) (h0 : l.Length = 0) :
    Pop h l = .ok (none, h, l) := by
  simp [Pop, h0]

/-- Calling `Dequeue` on an empty list (recorded length 0) changes nothing and returns nil. -/
theorem dequeue_empty (h : Heap α) (l : LinkedList) (h0 : l.Length = 0) :
    Dequeue h l = .ok (none, h, l) := by
  simp [Dequeue, h0]

/-- Calling `Pop` on a represented list removes the last cell and returns its value. -/
theorem pop_rep {h : Heap α} {l : LinkedList} {cs : List (Cell α)} {c : Cell α}
    (hc : Rep h l (cs ++ [c])) :
    ∃ h2 l2, Pop h l = .ok (c.2, h2, l2) ∧ Rep h2 l2 cs ∧ h2.length = h.length ∧
      (cs = [] → l2 = zeroList) := by
  obtain ⟨hch, hlen⟩ := hc
  have hl : l.last = some c.1 := by rw [hch.last]; simp
  have hseg := (seg_append cs [c] none none).1 hch.seg
  have hcell : h[c.1]? = some { Value := c.2, Next := none, Previous := lastOr cs none } :=
    hseg.2.1
  rcases List.eq_nil_or_concat cs with rfl | ⟨xs, d, hcs⟩
  · have h1 : l.Length = 1 := by simpa using hlen
    refine ⟨h, zeroList, ?_, rep_zero h, rfl, fun _ => rfl⟩
    simp only [Pop, h1, hl, deref_some hcell, ok_bind]
    simp [zeroList]
  · rw [List.concat_eq_append] at hcs
    subst hcs
    have hn0 : l.Length ≠ 0 := by rw [hlen]; simp; omega
    have hn1 : l.Length ≠ 1 := by rw [hlen]; simp; omega
    have hseg2 := (seg_append xs [d] none (some c.1)).1 hseg.1
    have hxs : Seg h none xs (some d.1) := hseg2.1
    have hd : h[d.1]? = some { Value := d.2, Next := some c.1, Previous := lastOr xs none } :=
      hseg2.2.1
    have hcell2 : h[c.1]? = some { Value := c.2, Next := none, Previous := some d.1 } := by
      rw [hcell]; simp
    have hdc : d.1 ≠ c.1 := nodup_concat_ne hch.nodup d (by simp)
    have hxc : ∀ x ∈ xs, x.1 ≠ c.1 := fun x hx =>
      nodup_concat_ne hch.nodup x (by simp [hx])
    have hxd : ∀ x ∈ xs, x.1 ≠ d.1 := nodup_concat_ne (nodup_of_concat hch.nodup)
    let h1 : Heap α := h.set d.1 { Value := d.2, Next := none, Previous := lastOr xs none }
    let h2 : Heap α := h1.set c.1 { Value := c.2, Next := none, Previous := none }
    have e1 : h1[c.1]? = some { Value := c.2, Next := none, Previous := some d.1 } := by
      rw [get_set_other _ hdc]; exact hcell2
    have e2 : h2[c.1]? = some { Value := c.2, Next := none, Previous := none } :=
      get_set_same (by simp [h1]; exact lt_of_get hcell)
    refine ⟨h2, { l with last := some d.1, Length := l.Length - 1 }, ?_, ⟨⟨?_, ?_, ?_, ?_⟩, ?_⟩,
      by simp [h2, h1], ?_⟩
    · simp only [Pop, hn0, hn1, if_false, hl]
      rw [deref_some hcell2, ok_bind, store_some hd, ok_bind, store_some e1, ok_bind,
        deref_some e2, ok_bind]
    · rw [seg_append]
      refine ⟨seg_frame hxs ?_, ?_, trivial⟩
      · intro x hx
        rw [get_set_other _ (Ne.symm (hxc x hx)), get_set_other _ (Ne.symm (hxd x hx))]
      · show h2[d.1]? = _
        rw [get_set_other _ (Ne.symm hdc), get_set_same (lt_of_get hd)]
        rfl
    · show l.root = _
      rw [hch.root, firstOr_append]
      cases xs <;> simp
    · simp
    · exact nodup_of_concat hch.nodup
    · show l.Length - 1 = _
      rw [hlen]; simp; omega
    · intro he
      simp at he

/-- Calling `Queue` on a well-formed chain prepends one cell at the fresh address. -/
theorem queue_rep {h : Heap α} {l : LinkedList} {cs : List (Cell α)}
    (hc : Rep h l cs) (v : Any α) :
    ∃ h2 l2, Queue h l v = .ok (h2, l2) ∧ Rep h2 l2 ((h.length, v) :: cs) ∧
      h2.length = h.length + 1 := by
  obtain ⟨hch, hlen⟩ := hc
  cases cs with
  | nil =>
    have hr : l.root = none := hch.root
    refine ⟨h ++ [{ Value := v, Next := none, Previous := none }],
      { root := some h.length, last := some h.length, Length := 1 },
      by simp [Queue, alloc, hr], ⟨⟨?_, rfl, rfl, by simp⟩, by simp⟩, by simp⟩
    simp [Seg]
  | cons d rest =>
    have hr : l.root = some d.1 := hch.root
    have hrn : l.root ≠ none := by rw [hr]; simp
    have hd : h[d.1]? = some { Value := d.2, Next := firstOr rest none, Previous := none } :=
      hch.seg.1
    have hrest : Seg h (some d.1) rest none := hch.seg.2
    have hdlt : d.1 < h.length := lt_of_get hd
    have hxd : ∀ x ∈ rest, x.1 ≠ d.1 := nodup_cons_ne hch.nodup
    have hxlt := seg_lt hrest
    let n0 : GenericLink α := { Value := v, Next := none, Previous := none }
    let h0 : Heap α := h ++ [n0]
    let h1 : Heap α := h0.set h.length { n0 with Next := some d.1 }
    let h2 : Heap α :=
      h1.set d.1 { Value := d.2, Next := firstOr rest none, Previous := some h.length }
    have e0 : h0[h.length]? = some n0 := get_alloc_new h n0
    have e1 : h1[d.1]? = some { Value := d.2, Next := firstOr rest none, Previous := none } := by
      rw [get_set_other _ (by omega), get_alloc_old _ hdlt]; exact hd
    refine ⟨h2, { l with root := some h.length, Length := l.Length + 1 }, ?_,
      ⟨⟨⟨?_, ?_, ?_⟩, rfl, ?_, ?_⟩, ?_⟩, by simp [h2, h1, h0]⟩
    · simp only [Queue, alloc, hrn, if_false]
      rw [hr, store_some e0, ok_bind, store_some e1, ok_bind]
    · show h2[h.length]? = _
      rw [get_set_other _ (by omega), get_set_same (by simp [h0])]
      rfl
    · show h2[d.1]? = _
      rw [get_set_same (by simp [h1, h0]; omega)]
    · refine seg_frame hrest (fun x hx => ?_)
      rw [get_set_other _ (Ne.symm (hxd x hx)), get_set_other _ (by have := hxlt x hx; omega),
        get_alloc_old _ (hxlt x hx)]
    · show l.last = _
      rw [hch.last]; rfl
    · rw [List.map_cons, List.nodup_cons]
      refine ⟨?_, hch.nodup⟩
      intro hm
      obtain ⟨x, hx, he⟩ := List.mem_map.1 hm
      have := seg_lt hch.seg x hx
      simp at he
      omega
    · show l.Length + 1 = _
      rw [hlen]; simp

/-- Calling `Dequeue` on a represented list removes the first cell and returns its value. -/
theorem dequeue_rep {h : Heap α} {l : LinkedList} {cs : List (Cell α)} {c : Cell α}
    (hc : Rep h l (c :: cs)) :
    ∃ h2 l2, Dequeue h l = .ok (c.2, h2, l2) ∧ Rep h2 l2 cs ∧ h2.length = h.length ∧
      (cs = [] → l2 = zeroList) := by
  obtain ⟨hch, hlen⟩ := hc
  have hr : l.root = some c.1 := hch.root
  have hcell : h[c.1]? = some { Value := c.2, Next := firstOr cs none, Previous := none } :=
    hch.seg.1
  cases cs with
  | nil =>
    have h1 : l.Length = 1 := by simpa using hlen
    refine ⟨h, zeroList, ?_, rep_zero h, rfl, fun _ => rfl⟩
    simp only [Dequeue, h1, hr, deref_some hcell, ok_bind]
    simp [zeroList]
  | cons d rest =>
    have hn0 : l.Length ≠ 0 := by rw [hlen]; simp; omega
    have hn1 : l.Length ≠ 1 := by rw [hlen]; simp; omega
    have hcell2 : h[c.1]? = some { Value := c.2, Next := some d.1, Previous := none } := hcell
    have hd : h[d.1]? =
        some { Value := d.2, Next := firstOr rest none, Previous := some c.1 } := hch.seg.2.1
    have hrest : Seg h (some d.1) rest none := hch.seg.2.2
    have hdc : d.1 ≠ c.1 := nodup_cons_ne hch.nodup d (by simp)
    have hxc : ∀ x ∈ rest, x.1 ≠ c.1 := fun x hx =>
      nodup_cons_ne hch.nodup x (by simp [hx])
    have hxd : ∀ x ∈ rest, x.1 ≠ d.1 := nodup_cons_ne (nodup_of_cons hch.nodup)
    let h1 : Heap α := h.set d.1 { Value := d.2, Next := firstOr rest none, Previous := none }
    let h2 : Heap α := h1.set c.1 { Value := c.2, Next := none, Previous := none }
    have e1 : h1[c.1]? = some { Value := c.2, Next := some d.1, Previous := none } := by
      rw [get_set_other _ hdc]; exact hcell2
    have e2 : h2[c.1]? = some { Value := c.2, Next := none, Previous := none } :=
      get_set_same (by simp [h1]; exact lt_of_get hcell)
    refine ⟨h2, { l with root := some d.1, Length := l.Length - 1 }, ?_,
      ⟨⟨⟨?_, ?_⟩, rfl, ?_, nodup_of_cons hch.nodup⟩, ?_⟩, by simp [h2, h1], ?_⟩
    · simp only [Dequeue, hn0, hn1, if_false, hr]
      rw [deref_some hcell2, ok_bind, store_some hd, ok_bind, store_some e1, ok_bind,
        deref_some e2, ok_bind]
    · show h2[d.1]? = _
      rw [get_set_other _ (Ne.symm hdc), get_set_same (lt_of_get hd)]
    · refine seg_frame hrest (fun x hx => ?_)
      rw [get_set_other _ (Ne.symm (hxc x hx)), get_set_other _ (Ne.symm (hxd x hx))]
    · show l.last = _
      rw [hch.last]; rfl
    · show l.Length - 1 = _
      rw [hlen]; simp
    · intro he
      simp at he

/-! ## Push, Pop, Queue, Dequeue, Enumerate -/

theorem pushAll_rep {h : Heap α} {l : LinkedList} {cs : List (Cell α)}
    (hc : Rep h l cs) (vs : List (Any α)) :
    ∃ h2 l2 cs2, pushAll h l vs = .ok (h2, l2) ∧ Rep h2 l2 (cs ++ cs2) ∧
      cs2.map Prod.snd = vs := by
  induction vs generalizing h l cs with
  | nil => exact ⟨h, l, [], rfl, by simpa using hc, rfl⟩
  | cons v vs ih =>
    obtain ⟨h1, l1, hp, hr, _, _⟩ := push_rep hc v
    obtain ⟨h2, l2, cs2, hp2, hr2, hv⟩ := ih hr
    refine ⟨h2, l2, (h.length, v) :: cs2, ?_, by simpa using hr2, by simp [hv]⟩
    simp only [pushAll, hp, ok_bind]
    exact hp2

theorem queueAll_rep {h : Heap α} {l : LinkedList} {cs : List (Cell α)}
    (hc : Rep h l cs) (vs : List (Any α)) :
    ∃ h2 l2 cs2, queueAll h l vs = .ok (h2, l2) ∧ Rep h2 l2 (cs2 ++ cs) ∧
      cs2.map Prod.snd = vs.reverse := by
  induction vs generalizing h l cs with
  | nil => exact ⟨h, l, [], rfl, by simpa using hc, rfl⟩
  | cons v vs ih =>
    obtain ⟨h1, l1, hp, hr, _⟩ := queue_rep hc v
    obtain ⟨h2, l2, cs2, hp2, hr2, hv⟩ := ih hr
    refine ⟨h2, l2, cs2 ++ [(h.length, v)], ?_, by simpa using hr2, by simp [hv]⟩
    simp only [queueAll, hp, ok_bind]
    exact hp2

theorem rep_nil_eq {h : Heap α} {l : LinkedList} (hc : Rep h l ([] : List (Cell α))) :
    l = zeroList := by
  obtain ⟨hch, hlen⟩ := hc
  cases l with
  | mk r t n =>
    have h1 : r = none := hch.root
    have h2 : t = none := hch.last
    have h3 : n = 0 := by simpa using hlen
    subst h1 h2 h3
    rfl

theorem countdown_succ (n : Nat) : countdown (n + 1) = (n : Int) :: countdown n := by
  simp [countdown, List.range_succ]

theorem popN_rep {h : Heap α} {l : LinkedList} {cs : List (Cell α)} (hc : Rep h l cs) :
    ∃ h2, popN cs.length h l =
      .ok ((cs.map Prod.snd).reverse.zip (countdown cs.length), h2, zeroList) := by
  induction cs using List.reverseRecOn generalizing h l with
  | nil => exact ⟨h, by rw [rep_nil_eq hc]; rfl⟩
  | append_singleton xs c ih =>
    obtain ⟨h1, l1, hp, hr, _, _⟩ := pop_rep hc
    obtain ⟨h2, hp2⟩ := ih hr
    refine ⟨h2, ?_⟩
    rw [List.length_append, List.length_singleton]
    simp only [popN, hp, ok_bind, hp2, hr.2, countdown_succ]
    simp

theorem dequeueN_rep {h : Heap α} {l : LinkedList} {cs : List (Cell α)} (hc : Rep h l cs) :
    ∃ h2, dequeueN cs.length h l =
      .ok ((cs.map Prod.snd).zip (countdown cs.length), h2, zeroList) := by
  induction cs generalizing h l with
  | nil => exact ⟨h, by rw [rep_nil_eq hc]; rfl⟩
  | cons c xs ih =>
    obtain ⟨h1, l1, hp, hr, _, _⟩ := dequeue_rep hc
    obtain ⟨h2, hp2⟩ := ih hr
    refine ⟨h2, ?_⟩
    rw [List.length_cons]
    simp only [dequeueN, hp, ok_bind, hp2, hr.2, countdown_succ]
    simp

theorem take_set_succ {β : Type} (res : List β) (i : Nat) (v : β) (hi : i < res.length) :
    (res.set i v).take (i + 1) = res.take i ++ [v] := by
  induction res generalizing i with
  | nil => simp at hi
  | cons x xs ih =>
    cases i with
    | zero => simp
    | succ j =>
      simp only [List.set_cons_succ, List.take_succ_cons, List.cons_append, List.cons.injEq,
        true_and]
      exact ih j (by simpa using hi)

theorem enumerateLoop_seg {h : Heap α} {cs : List (Cell α)} {prev : Ptr}
    (hs : Seg h prev cs none) (fuel : Nat) (res : List (Any α)) (i : Nat)
    (hf : cs.length < fuel) (hlen : res.length = i + cs.length) :
    enumerateLoop h fuel res i (firstOr cs none) = .ok (res.take i ++ cs.map Prod.snd) := by
  induction cs generalizing prev fuel res i with
  | nil =>
    have : res.take i = res := List.take_of_length_le (by simp at hlen; omega)
    cases fuel <;> simp [enumerateLoop, this]
  | cons c cs ih =>
    cases fuel with
    | zero => simp at hf
    | succ fuel =>
      have hi : i < res.length := by simp at hlen; omega
      simp only [firstOr_cons, enumerateLoop, deref_some hs.1, ok_bind, hi, if_true]
      rw [ih hs.2 fuel _ (i + 1) (by simpa using hf) (by simp at hlen ⊢; omega),
        take_set_succ _ _ _ hi]
      simp

/-- Calling `Enumerate` on a represented list returns the values of its cells in order. -/
theorem enumerate_rep {h : Heap α} {l : LinkedList} {cs : List (Cell α)} (hc : Rep h l cs) :
    Enumerate h l = .ok (.backed (cs.map Prod.snd)) := by
  obtain ⟨hch, hlen⟩ := hc
  cases cs with
  | nil =>
    have : l.Length = 0 := by simpa using hlen
    simp [Enumerate, this]
  | cons c cs =>
    have hn0 : l.Length ≠ 0 := by rw [hlen]; simp; omega
    have hn1 : ¬ l.Length < 0 := by rw [hlen]; simp; omega
    have htn : l.Length.toNat = (c :: cs).length := by rw [hlen]; simp
    simp only [Enumerate, hn0, hn1, if_false, hch.root, htn]
    rw [enumerateLoop_seg hch.seg _ _ 0 (by simp) (by simp)]
    simp

/-- Claim C1. Starting from the zero-value list (in any heap), after `Push(v1)`, ...,
`Push(vn)` the call `Enumerate` returns the non-nil slice `[v1, ..., vn]`, in
that order (the empty non-nil slice when `n = 0`), and `Length` is `n`. -/
theorem push_then_enumerate (h0 : Heap α) (vs : List (Any α)) :
    (do
      let (h, l) ← pushAll h0 zeroList vs
      let e ← Enumerate h l
      pure (e, l.Length)) = Except.ok (AnySlice.backed vs, (vs.length : Int)) := by
  obtain ⟨h, l, cs, hp, hr, hv⟩ := pushAll_rep (rep_zero h0) vs
  rw [List.nil_append] at hr
  simp only [hp, ok_bind, enumerate_rep hr, hv, hr.2, pure, Except.pure]
  rw [← hv]; simp

/-- Claim C2. After `Push(v1)`, ..., `Push(vn)` on the zero-value list, `n`
successive calls of `Pop` return `vn, ..., v1`, the `Length`, `n` before the
first call, read after the calls is `n-1, ..., 0`, and the list ends as the zero
value: `root` and `last` nil, `Length` 0. -/
theorem push_then_pop (h0 : Heap α) (vs : List (Any α)) :
    (do
      let (h, l) ← pushAll h0 zeroList vs
      let (tr, _, l2) ← popN vs.length h l
      pure (l.Length, tr, l2)) =
      Except.ok ((vs.length : Int), vs.reverse.zip (countdown vs.length),
        ({ root := none, last := none, Length := 0 } : LinkedList)) := by
  obtain ⟨h, l, cs, hp, hr, hv⟩ := pushAll_rep (rep_zero h0) vs
  rw [List.nil_append] at hr
  obtain ⟨h2, hp2⟩ := popN_rep hr
  have hl : vs.length = cs.length := by rw [← hv]; simp
  simp only [hp, ok_bind, hl, hp2, pure, Except.pure, hv, hr.2]
  rfl

/-- Claim C3. After `Queue(v1)`, ..., `Queue(vn)` on the zero-value list the
head-to-tail order is `vn, ..., v1`; `n` successive calls of `Dequeue` return
`vn, ..., v1`, the `Length`, `n` before the first call, read after the calls is
`n-1, ..., 0`, and the list ends as the zero value: `root` and `last` nil,
`Length` 0. -/
theorem queue_then_dequeue (h0 : Heap α) (vs : List (Any α)) :
    (do
      let (h, l) ← queueAll h0 zeroList vs
      let e ← Enumerate h l
      let (tr, _, l2) ← dequeueN vs.length h l
      pure (e, l.Length, tr, l2)) =
      Except.ok (AnySlice.backed vs.reverse, (vs.length : Int),
        vs.reverse.zip (countdown vs.length),
        ({ root := none, last := none, Length := 0 } : LinkedList)) := by
  obtain ⟨h, l, cs, hp, hr, hv⟩ := queueAll_rep (rep_zero h0) vs
  rw [List.append_nil] at hr
  obtain ⟨h2, hp2⟩ := dequeueN_rep hr
  have hl : vs.length = cs.length := by
    have := congrArg List.length hv
    simpa using this.symm
  simp only [hp, ok_bind, hl, hp2, pure, Except.pure, hv, enumerate_rep hr, hr.2]
  rfl

/-- Claim C4. On an empty list (recorded `Length` 0, as for the zero value and for
a list emptied by `Pop` or `Dequeue`) both `Pop` and `Dequeue` return nil and
leave heap and list exactly as they were. -/
theorem pop_dequeue_on_empty (h : Heap α) (l : LinkedList) (hl : l.Length = 0) :
    Pop h l = Except.ok (none, h, l) ∧ Dequeue h l = Except.ok (none, h, l) :=
  ⟨pop_empty h l hl, dequeue_empty h l hl⟩

theorem pop_dequeue_on_empty_witness :
    zeroList.Length = 0 ∧
    (Pop ([{ Value := some 7, Next := none, Previous := none }] : Heap Nat) zeroList =
        Except.ok (none, [{ Value := some 7, Next := none, Previous := none }], zeroList) ∧
      Dequeue ([{ Value := some 7, Next := none, Previous := none }] : Heap Nat) zeroList =
        Except.ok (none, [{ Value := some 7, Next := none, Previous := none }], zeroList)) :=
  ⟨rfl, pop_dequeue_on_empty [{ Value := some 7, Next := none, Previous := none }] zeroList rfl⟩

/-! ## RemoveAt -/

theorem lastOr_cons_indep (c : Cell α) (cs : List (Cell α)) (d e : Ptr) :
    lastOr (c :: cs) d = lastOr (c :: cs) e := rfl

theorem firstOr_mem {cs : List (Cell α)} {a : Nat} (hf : firstOr cs none = some a) :
    ∃ x ∈ cs, x.1 = a := by
  cases cs with
  | nil => simp at hf
  | cons c cs => exact ⟨c, by simp, by simpa using hf⟩

theorem lastOr_mem {cs : List (Cell α)} {a : Nat} (hf : lastOr cs none = some a) :
    ∃ x ∈ cs, x.1 = a := by
  rcases List.eq_nil_or_concat cs with rfl | ⟨xs, c, hcs⟩
  · simp at hf
  · rw [List.concat_eq_append] at hcs
    subst hcs
    exact ⟨c, by simp, by simpa using hf⟩

theorem walkNext_seg {h : Heap α} {cs : List (Cell α)} {prev : Ptr}
    (hs : Seg h prev cs none) (fuel : Nat) (hf : cs.length < fuel) :
    walkNext h fuel (firstOr cs none) = .ok (cs.map Prod.snd) := by
  induction cs generalizing prev fuel with
  | nil => cases fuel <;> simp [walkNext]
  | cons c cs ih =>
    cases fuel with
    | zero => simp at hf
    | succ fuel =>
      simp only [firstOr_cons, walkNext, deref_some hs.1, ok_bind]
      rw [ih hs.2 fuel (by simpa using hf)]
      simp

theorem walkPrev_seg {h : Heap α} {cs : List (Cell α)} {nxt : Ptr}
    (hs : Seg h none cs nxt) (fuel : Nat) (hf : cs.length < fuel) :
    walkPrev h fuel (lastOr cs none) = .ok (cs.map Prod.snd).reverse := by
  induction cs using List.reverseRecOn generalizing nxt fuel with
  | nil => cases fuel <;> simp [walkPrev]
  | append_singleton xs c ih =>
    cases fuel with
    | zero => simp at hf
    | succ fuel =>
      have hseg := (seg_append xs [c] none nxt).1 hs
      have hcell : h[c.1]? = some { Value := c.2, Next := nxt, Previous := lastOr xs none } :=
        hseg.2.1
      simp only [lastOr_concat, walkPrev, deref_some hcell, ok_bind]
      rw [ih hseg.1 fuel (by simp at hf; omega)]
      simp

/-- The loop of `RemoveAt` running over cells none of which has the wanted index. -/
theorem removeAtLoop_skip {h : Heap α} (l : LinkedList) (index : Int) {cs : List (Cell α)}
    {prev nxt : Ptr} (hs : Seg h prev cs nxt) (fuel i : Nat)
    (hmiss : index < i ∨ (i : Int) + cs.length ≤ index) :
    removeAtLoop h l index (fuel + cs.length) i (firstOr cs nxt) =
      removeAtLoop h l index fuel (i + cs.length) nxt := by
  induction cs generalizing prev i with
  | nil => rfl
  | cons c cs ih =>
    have hne : ¬ ((i : Int) = index) := by
      simp only [List.length_cons, Nat.cast_add, Nat.cast_one] at hmiss
      omega
    have e : fuel + (c :: cs).length = (fuel + cs.length) + 1 := by simp; omega
    rw [e]
    simp only [firstOr_cons, removeAtLoop, hne, if_false, deref_some hs.1, ok_bind]
    rw [ih hs.2 (i + 1) (by
      simp only [List.length_cons, Nat.cast_add, Nat.cast_one] at hmiss ⊢
      omega)]
    congr 1
    simp; omega

theorem removeAt_miss {h : Heap α} {l : LinkedList} {cs : List (Cell α)}
    (hc : Chain h l cs) (fuel : Nat) (index : Int)
    (hmiss : index < 0 ∨ (cs.length : Int) ≤ index) (hf : cs.length < fuel) :
    RemoveAt fuel h l index = .ok (false, h, l) := by
  obtain ⟨k, rfl⟩ : ∃ k, fuel = k + cs.length := ⟨fuel - cs.length, by omega⟩
  unfold RemoveAt
  rw [hc.root, removeAtLoop_skip l index hc.seg k 0 (by
    rcases hmiss with hm | hm
    · left; simpa using hm
    · right; simpa using hm)]
  cases k <;> rfl

theorem unlinkForward_spec {h : Heap α} (l : LinkedList) {c : Cell α} {post : List (Cell α)}
    {P : Ptr} (hcell : h[c.1]? = some { Value := c.2, Next := firstOr post none, Previous := P })
    (hpost : Seg h (some c.1) post none) (hnd : (post.map Prod.fst).Nodup)
    (hlast : l.last = lastOr post (some c.1)) :
    ∃ h1 l1, unlinkForward h l (some c.1) = .ok (h1, l1) ∧ Seg h1 P post none ∧
      (∀ a, (∀ x ∈ post, x.1 ≠ a) → h1[a]? = h[a]?) ∧ h1.length = h.length ∧
      l1.root = l.root ∧ l1.Length = l.Length ∧ l1.last = lastOr post P := by
  cases post with
  | nil =>
    refine ⟨h, { l with last := P }, ?_, trivial, fun _ _ => rfl, rfl, rfl, rfl, rfl⟩
    simp [unlinkForward, deref_some hcell]
  | cons d rest =>
    have hd : h[d.1]? =
        some { Value := d.2, Next := firstOr rest none, Previous := some c.1 } := hpost.1
    refine ⟨h.set d.1 { Value := d.2, Next := firstOr rest none, Previous := P }, l, ?_,
      ⟨?_, ?_⟩, ?_, by simp, rfl, rfl, ?_⟩
    · simp [unlinkForward, deref_some hcell, store_some hd]
    · show (h.set d.1 _)[d.1]? = _
      rw [get_set_same (lt_of_get hd)]
    · refine seg_frame hpost.2 (fun x hx => ?_)
      rw [get_set_other _ (Ne.symm (nodup_cons_ne hnd x hx))]
    · intro a ha
      rw [get_set_other _ (ha d (by simp))]
    · rw [hlast]; rfl

theorem unlinkBackward_spec {h : Heap α} (l : LinkedList) {c : Cell α} {pre : List (Cell α)}
    {N : Ptr} (hcell : h[c.1]? = some { Value := c.2, Next := N, Previous := lastOr pre none })
    (hpre : Seg h none pre (some c.1)) (hnd : (pre.map Prod.fst).Nodup)
    (hroot : l.root = firstOr pre (some c.1)) :
    ∃ h1 l1, unlinkBackward h l (some c.1) = .ok (h1, l1) ∧ Seg h1 none pre N ∧
      (∀ a, (∀ x ∈ pre, x.1 ≠ a) → h1[a]? = h[a]?) ∧ h1.length = h.length ∧
      l1.last = l.last ∧ l1.Length = l.Length ∧ l1.root = firstOr pre N := by
  rcases List.eq_nil_or_concat pre with rfl | ⟨xs, b, hcs⟩
  · refine ⟨h, { l with root := N }, ?_, trivial, fun _ _ => rfl, rfl, rfl, rfl, rfl⟩
    have hcell2 : h[c.1]? = some { Value := c.2, Next := N, Previous := none } := hcell
    simp [unlinkBackward, deref_some hcell2]
  · rw [List.concat_eq_append] at hcs
    subst hcs
    have hcell2 : h[c.1]? = some { Value := c.2, Next := N, Previous := some b.1 } := by
      rw [hcell]; simp
    have hseg := (seg_append xs [b] none (some c.1)).1 hpre
    have hb : h[b.1]? = some { Value := b.2, Next := some c.1, Previous := lastOr xs none } :=
      hseg.2.1
    refine ⟨h.set b.1 { Value := b.2, Next := N, Previous := lastOr xs none }, l, ?_,
      ?_, ?_, by simp, rfl, rfl, ?_⟩
    · simp [unlinkBackward, deref_some hcell2, store_some hb]
    · rw [seg_append]
      refine ⟨seg_frame hseg.1 (fun x hx => ?_), ?_, trivial⟩
      · rw [get_set_other _ (Ne.symm (nodup_concat_ne hnd x hx))]
      · show (h.set b.1 _)[b.1]? = _
        rw [get_set_same (lt_of_get hb)]
        rfl
    · intro a ha
      rw [get_set_other _ (ha b (by simp))]
    · rw [hroot, firstOr_append, firstOr_append]
      cases xs <;> simp

theorem nodup_split {pre post : List (Cell α)} {c : Cell α}
    (hnd : ((pre ++ c :: post).map Prod.fst).Nodup) :
    (pre.map Prod.fst).Nodup ∧ (post.map Prod.fst).Nodup ∧ (∀ x ∈ pre, x.1 ≠ c.1) ∧
      (∀ x ∈ post, x.1 ≠ c.1) ∧ (∀ x ∈ pre, ∀ y ∈ post, x.1 ≠ y.1) ∧
      ((pre ++ post).map Prod.fst).Nodup := by
  rw [List.map_append, List.nodup_append, List.map_cons, List.nodup_cons] at hnd
  obtain ⟨h1, ⟨h2, h3⟩, h4⟩ := hnd
  have hpc : ∀ x ∈ pre, x.1 ≠ c.1 := fun x hx he =>
    h4 (List.mem_map_of_mem Prod.fst hx) (by simp [he])
  have hqc : ∀ x ∈ post, x.1 ≠ c.1 := fun x hx he =>
    h2 (by rw [← he]; exact List.mem_map_of_mem Prod.fst hx)
  have hpq : ∀ x ∈ pre, ∀ y ∈ post, x.1 ≠ y.1 := fun x hx y hy he =>
    h4 (List.mem_map_of_mem Prod.fst hx)
      (List.mem_cons_of_mem _ (by rw [he]; exact List.mem_map_of_mem Prod.fst hy))
  refine ⟨h1, h3, hpc, hqc, hpq, ?_⟩
  rw [List.map_append, List.nodup_append]
  refine ⟨h1, h3, ?_⟩
  intro a ha hb
  obtain ⟨x, hx, rfl⟩ := List.mem_map.1 ha
  obtain ⟨y, hy, he⟩ := List.mem_map.1 hb
  exact hpq x hx y hy he.symm

/-- Unlinking the node of cell `c` from a well-formed chain leaves a well-formed
chain through the other cells; the recorded `Length` is not changed. -/
theorem unlink_spec {h : Heap α} {l : LinkedList} {pre post : List (Cell α)} {c : Cell α}
    (hc : Chain h l (pre ++ c :: post)) :
    ∃ h4 l2, unlink h l (some c.1) = .ok (true, h4, l2) ∧ Chain h4 l2 (pre ++ post) ∧
      l2.Length = l.Length ∧ h4.length = h.length := by
  obtain ⟨hpren, hpostn, hpc, hqc, hpq, hnd⟩ := nodup_split hc.nodup
  have hseg := (seg_append pre (c :: post) none none).1 hc.seg
  have hpre : Seg h none pre (some c.1) := hseg.1
  have hcell : h[c.1]? =
      some { Value := c.2, Next := firstOr post none, Previous := lastOr pre none } := hseg.2.1
  have hpost : Seg h (some c.1) post none := hseg.2.2
  have hlast : l.last = lastOr post (some c.1) := by
    rw [hc.last, lastOr_append]; rfl
  have hroot : l.root = firstOr pre (some c.1) := by
    rw [hc.root, firstOr_append]; rfl
  obtain ⟨h1, l1, hu1, hpost1, hfr1, hlen1, hr1, hL1, hl1⟩ :=
    unlinkForward_spec l hcell hpost hpostn hlast
  have hcell1 : h1[c.1]? =
      some { Value := c.2, Next := firstOr post none, Previous := lastOr pre none } := by
    rw [hfr1 c.1 hqc]; exact hcell
  have hpre1 : Seg h1 none pre (some c.1) :=
    seg_frame hpre (fun x hx => hfr1 x.1 (fun y hy => Ne.symm (hpq x hx y hy)))
  obtain ⟨h2, l2, hu2, hpre2, hfr2, hlen2, hl2, hL2, hr2⟩ :=
    unlinkBackward_spec l1 hcell1 hpre1 hpren (by rw [hr1]; exact hroot)
  have hcell2 : h2[c.1]? =
      some { Value := c.2, Next := firstOr post none, Previous := lastOr pre none } := by
    rw [hfr2 c.1 hpc]; exact hcell1
  have hpost2 : Seg h2 (lastOr pre none) post none :=
    seg_frame hpost1 (fun y hy => hfr2 y.1 (fun x hx => hpq x hx y hy))
  have hclt : c.1 < h2.length := lt_of_get hcell2
  let h3 : Heap α :=
    h2.set c.1 { Value := c.2, Next := none, Previous := lastOr pre none }
  let h4 : Heap α := h3.set c.1 { Value := c.2, Next := none, Previous := none }
  have e3 : h3[c.1]? = some { Value := c.2, Next := none, Previous := lastOr pre none } :=
    get_set_same hclt
  have hfr4 : ∀ a, a ≠ c.1 → h4[a]? = h2[a]? := by
    intro a ha
    rw [get_set_other _ (Ne.symm ha), get_set_other _ (Ne.symm ha)]
  refine ⟨h4, l2, ?_, ⟨?_, ?_, ?_, hnd⟩, by rw [hL2, hL1], by simp [h4, h3, hlen2, hlen1]⟩
  · simp only [unlink, hu1, ok_bind, hu2]
    rw [store_some hcell2, ok_bind, store_some e3, ok_bind]
  · rw [seg_append]
    exact ⟨seg_frame hpre2 (fun x hx => hfr4 x.1 (hpc x hx)),
      seg_frame hpost2 (fun y hy => hfr4 y.1 (hqc y hy))⟩
  · rw [hr2, firstOr_append]
  · rw [hl2, hl1, lastOr_append]

theorem split_at {β : Type} (cs : List β) (i : Nat) (hi : i < cs.length) :
    ∃ pre c post, cs = pre ++ c :: post ∧ pre.length = i ∧ cs.eraseIdx i = pre ++ post := by
  induction cs generalizing i with
  | nil => simp at hi
  | cons x xs ih =>
    cases i with
    | zero => exact ⟨[], x, xs, rfl, rfl, rfl⟩
    | succ j =>
      obtain ⟨pre, c, post, he, hl, hr⟩ := ih j (by simpa using hi)
      exact ⟨x :: pre, c, post, by simp [he], by simp [hl], by simp [hr]⟩

/-- Calling `RemoveAt` at a valid index of a well-formed chain returns true and leaves a
well-formed chain through the other cells; the recorded `Length` is not changed. -/
theorem removeAt_hit {h : Heap α} {l : LinkedList} {cs : List (Cell α)}
    (hc : Chain h l cs) (fuel i : Nat) (hi : i < cs.length) (hf : cs.length < fuel) :
    ∃ h2 l2, RemoveAt fuel h l i = .ok (true, h2, l2) ∧ Chain h2 l2 (cs.eraseIdx i) ∧
      l2.Length = l.Length ∧ h2.length = h.length := by
  obtain ⟨pre, c, post, he, hl, hr⟩ := split_at cs i hi
  subst he
  obtain ⟨k, rfl⟩ : ∃ k, fuel = (k + 1) + pre.length := ⟨fuel - pre.length - 1, by
    simp at hf; omega⟩
  have hseg := (seg_append pre (c :: post) none none).1 hc.seg
  obtain ⟨h2, l2, hu, hch, hL, hlen⟩ := unlink_spec hc
  refine ⟨h2, l2, ?_, by rw [hr]; exact hch, hL, hlen⟩
  unfold RemoveAt
  have hroot : l.root = firstOr pre (some c.1) := by
    rw [hc.root, firstOr_append]; rfl
  have hpre : Seg h none pre (some c.1) := hseg.1
  rw [hroot, removeAtLoop_skip l (i : Int) hpre (k + 1) 0 (by right; simp [hl])]
  simp only [removeAtLoop, Nat.zero_add, hl, if_true]
  exact hu

theorem firstOr_erase {pre post : List (Cell α)} {c : Cell α}
    (hnd : ((pre ++ c :: post).map Prod.fst).Nodup) :
    (firstOr (pre ++ post) none = firstOr (pre ++ c :: post) none ↔ pre ≠ []) := by
  obtain ⟨_, _, _, hqc, _, _⟩ := nodup_split hnd
  cases pre with
  | nil =>
    simp only [List.nil_append, firstOr_cons, ne_eq, not_true_eq_false, iff_false]
    intro he
    obtain ⟨x, hx, hxe⟩ := firstOr_mem he
    exact hqc x hx hxe
  | cons p pre => simp

theorem lastOr_erase {pre post : List (Cell α)} {c : Cell α}
    (hnd : ((pre ++ c :: post).map Prod.fst).Nodup) :
    (lastOr (pre ++ post) none = lastOr (pre ++ c :: post) none ↔ post ≠ []) := by
  obtain ⟨_, _, hpc, _, _, _⟩ := nodup_split hnd
  cases post with
  | nil =>
    simp only [List.append_nil, ne_eq, not_true_eq_false, iff_false]
    intro he
    rw [lastOr_concat] at he
    obtain ⟨x, hx, hxe⟩ := lastOr_mem he
    exact hpc x hx hxe
  | cons q post => simp [lastOr_append]

theorem firstOr_eq_none {cs : List (Cell α)} : firstOr cs none = none ↔ cs = [] := by
  cases cs <;> simp

theorem lastOr_eq_none {cs : List (Cell α)} : lastOr cs none = none ↔ cs = [] := by
  cases cs with
  | nil => simp
  | cons c cs => simpa using lastOr_cons_ne_none c cs none

theorem eraseIdx_map_snd (cs : List (Cell α)) (i : Nat) :
    (cs.eraseIdx i).map Prod.snd = (cs.map Prod.snd).eraseIdx i := by
  induction cs generalizing i with
  | nil => simp
  | cons c cs ih =>
    cases i with
    | zero => simp
    | succ j => simp [ih]

/-- What `RemoveAt` does to the count: on the list built by pushing `v1..vn`,
`RemoveAt(i)` with `0 <= i < n` returns true and `Length` is `n` before and after. -/
theorem removeAt_length_unchanged (h0 : Heap α) (vs : List (Any α)) (i fuel : Nat)
    (hi : i < vs.length) (hf : vs.length < fuel) :
    (do
      let (h, l) ← pushAll h0 zeroList vs
      let (b, _, l2) ← RemoveAt fuel h l (i : Int)
      pure (b, l.Length, l2.Length)) =
      Except.ok (true, (vs.length : Int), (vs.length : Int)) := by
  obtain ⟨h, l, cs, hp, hr, hv⟩ := pushAll_rep (rep_zero h0) vs
  rw [List.nil_append] at hr
  have hlen : vs.length = cs.length := by rw [← hv]; simp
  obtain ⟨h2, l2, hrm, _, hL, _⟩ := removeAt_hit hr.1 fuel i (by omega) (by omega)
  simp only [hp, ok_bind, hrm, pure, Except.pure, hL, hr.2, hlen]

/-- Claim C5. Evaluation of the code where the claim fails: on the list built by
pushing 1, 2, 3 the call `RemoveAt(1)` returns true, and `Length`, 3 before the
call, is still 3 after it (the claim says 2). -/
theorem removeAt_length_not_decremented :
    (do
      let (h, l) ← pushAll ([] : Heap Nat) zeroList [some 1, some 2, some 3]
      let (b, _, l2) ← RemoveAt 4 h l ((1 : Nat) : Int)
      pure (b, l.Length, l2.Length)) = Except.ok (true, (3 : Int), (3 : Int)) :=
  removeAt_length_unchanged [] [some 1, some 2, some 3] 1 4 (by decide) (by decide)

/-- Claim C6. On the list built by pushing `v1..vn`, `RemoveAt(i)` with `0 <= i < n`
returns true and relinks the chain: following `Next` from `root` yields `v1..vn`
with position `i` erased, following `Previous` from `last` yields the reverse of
that; `root` is changed exactly when `i = 0`, `last` exactly when `i = n-1`, and
both are nil afterwards exactly when `n = 1`. -/
theorem removeAt_relinks (h0 : Heap α) (vs : List (Any α)) (i fuel : Nat)
    (hi : i < vs.length) (hf : vs.length < fuel) :
    (do
      let (h, l) ← pushAll h0 zeroList vs
      let (b, h2, l2) ← RemoveAt fuel h l (i : Int)
      let fw ← walkNext h2 fuel l2.root
      let bw ← walkPrev h2 fuel l2.last
      pure (b, fw, bw, decide (l2.root = l.root), decide (l2.last = l.last),
        l2.root.isNone, l2.last.isNone)) =
      Except.ok (true, vs.eraseIdx i, (vs.eraseIdx i).reverse, decide (i ≠ 0),
        decide (i + 1 ≠ vs.length), decide (vs.length = 1), decide (vs.length = 1)) := by
  obtain ⟨h, l, cs, hp, hr, hv⟩ := pushAll_rep (rep_zero h0) vs
  rw [List.nil_append] at hr
  have hlen : vs.length = cs.length := by rw [← hv]; simp
  obtain ⟨h2, l2, hrm, hch, _, _⟩ := removeAt_hit hr.1 fuel i (by omega) (by omega)
  have hle : (cs.eraseIdx i).length < fuel := by
    have := List.length_eraseIdx_le cs i
    omega
  obtain ⟨pre, c, post, he, hl, hre⟩ := split_at cs i (by omega)
  have hroot : (l2.root = l.root) ↔ i ≠ 0 := by
    rw [hch.root, hr.1.root, hre, he, firstOr_erase (he ▸ hr.1.nodup), ← hl]
    cases pre <;> simp
  have hlast : (l2.last = l.last) ↔ i + 1 ≠ vs.length := by
    rw [hch.last, hr.1.last, hre, he, lastOr_erase (he ▸ hr.1.nodup), hlen, he, ← hl]
    cases post <;> simp
  have hrn : l2.root.isNone = decide (vs.length = 1) := by
    rw [hch.root, hre, hlen, he]
    cases pre <;> cases post <;> simp
  have hln : l2.last.isNone = decide (vs.length = 1) := by
    rw [hch.last, hre, hlen, he, Bool.eq_iff_iff, Option.isNone_iff_eq_none, lastOr_eq_none]
    cases pre <;> cases post <;> simp
  simp only [hp, ok_bind, hrm, hch.root, hch.last, walkNext_seg hch.seg fuel hle,
    walkPrev_seg hch.seg fuel hle, pure, Except.pure, eraseIdx_map_snd, hv]
  rw [← hch.root, ← hch.last, hrn, hln]
  simp only [hroot, hlast]

theorem removeAt_relinks_witness :
    (1 < [some 5, some 6, some 7].length ∧ [some 5, some 6, some 7].length < 4) ∧
    (do
      let (h, l) ← pushAll ([] : Heap Nat) zeroList [some 5, some 6, some 7]
      let (b, h2, l2) ← RemoveAt 4 h l ((1 : Nat) : Int)
      let fw ← walkNext h2 4 l2.root
      let bw ← walkPrev h2 4 l2.last
      pure (b, fw, bw, decide (l2.root = l.root), decide (l2.last = l.last),
        l2.root.isNone, l2.last.isNone)) =
      Except.ok (true, [some 5, some 6, some 7].eraseIdx 1,
        ([some 5, some 6, some 7].eraseIdx 1).reverse, decide (1 ≠ 0),
        decide (1 + 1 ≠ [some 5, some 6, some 7].length),
        decide ([some 5, some 6, some 7].length = 1),
        decide ([some 5, some 6, some 7].length = 1)) :=
  ⟨by decide, removeAt_relinks [] [some 5, some 6, some 7] 1 4 (by decide) (by decide)⟩

/-- Claim C7. On the list built by pushing `v1..vn`, `RemoveAt(index)` with
`index < 0` or `index >= n` returns false and leaves everything as it was: the
same heap (every node's value and links) and the same `root`, `last`, `Length`. -/
theorem removeAt_invalid_index (h0 : Heap α) (vs : List (Any α)) (index : Int) (fuel : Nat)
    (hidx : index < 0 ∨ (vs.length : Int) ≤ index) (hf : vs.length < fuel) :
    ∃ h l, pushAll h0 zeroList vs = Except.ok (h, l) ∧
      RemoveAt fuel h l index = Except.ok (false, h, l) := by
  obtain ⟨h, l, cs, hp, hr, hv⟩ := pushAll_rep (rep_zero h0) vs
  rw [List.nil_append] at hr
  have hlen : vs.length = cs.length := by rw [← hv]; simp
  exact ⟨h, l, hp, removeAt_miss hr.1 fuel index (by rw [← hlen]; exact hidx) (by omega)⟩

theorem removeAt_invalid_index_witness :
    (((-1 : Int) < 0 ∨ (([some 5, some 6] : List (Any Nat)).length : Int) ≤ -1) ∧
      ([some 5, some 6] : List (Any Nat)).length < 3) ∧
    ∃ h l, pushAll ([] : Heap Nat) zeroList [some 5, some 6] = Except.ok (h, l) ∧
      RemoveAt 3 h l (-1) = Except.ok (false, h, l) :=
  ⟨by decide, removeAt_invalid_index [] [some 5, some 6] (-1) 3 (by decide) (by decide)⟩

/-! ## First, Last, Slice -/

/-- Calling `Push` onto a result list leaves every older node outside the result as it was. -/
theorem push_beside {h : Heap α} {res : LinkedList} {rs : List (Cell α)}
    (hr : Rep h res rs) (v : Any α) :
    ∃ h1 res1, Push h res v = .ok (h1, res1) ∧ Rep h1 res1 (rs ++ [(h.length, v)]) ∧
      h1.length = h.length + 1 ∧
      (∀ a, a < h.length → (∀ y ∈ rs, y.1 ≠ a) → h1[a]? = h[a]?) := by
  obtain ⟨h1, res1, hp, hr1, hlen, hfr⟩ := push_rep hr v
  refine ⟨h1, res1, hp, hr1, hlen, fun a ha hna => hfr a ha ?_⟩
  intro he
  rw [hr.1.last] at he
  obtain ⟨y, hy, hye⟩ := lastOr_mem he.symm
  exact hna y hy hye

theorem firstLoop_spec (n : Int) {h : Heap α} {res : LinkedList} {rs src : List (Cell α)}
    {prev : Ptr} (hr : Rep h res rs) (hs : Seg h prev src none)
    (hd : ∀ x ∈ src, ∀ y ∈ rs, y.1 ≠ x.1) (fuel i : Nat) (hf : n.toNat ≤ fuel + i) :
    ∃ h2 res2 rs2, firstLoop n fuel h res i (firstOr src none) = .ok (h2, res2) ∧
      Rep h2 res2 rs2 ∧
      rs2.map Prod.snd = rs.map Prod.snd ++ (src.map Prod.snd).take (n.toNat - i) ∧
      h.length ≤ h2.length ∧
      (∀ a, a < h.length → (∀ y ∈ rs, y.1 ≠ a) → h2[a]? = h[a]?) := by
  induction src generalizing h res rs prev fuel i with
  | nil =>
    refine ⟨h, res, rs, ?_, hr, by simp, le_refl _, fun _ _ _ => rfl⟩
    simp [firstLoop]
  | cons c src ih =>
    by_cases hlt : (i : Int) < n
    · cases fuel with
      | zero => omega
      | succ fuel =>
        obtain ⟨h1, res1, hp, hr1, hlen1, hfr1⟩ := push_beside hr c.2
        have hclt : c.1 < h.length := lt_of_get hs.1
        have hs1 : Seg h1 prev (c :: src) none :=
          seg_frame hs (fun x hx => hfr1 x.1 (seg_lt hs x hx) (hd x hx))
        have hd1 : ∀ x ∈ src, ∀ y ∈ rs ++ [(h.length, c.2)], y.1 ≠ x.1 := by
          intro x hx y hy
          rcases List.mem_append.1 hy with hy | hy
          · exact hd x (List.mem_cons_of_mem _ hx) y hy
          · simp only [List.mem_singleton] at hy
            subst hy
            have := seg_lt hs x (List.mem_cons_of_mem _ hx)
            simp only
            omega
        obtain ⟨h2, res2, rs2, hl2, hr2, hv2, hlen2, hfr2⟩ :=
          ih hr1 hs1.2 hd1 fuel (i + 1) (by omega)
        refine ⟨h2, res2, rs2, ?_, hr2, ?_, by omega, ?_⟩
        · simp only [firstOr_cons, firstLoop, hlt, if_true, deref_some hs.1, ok_bind, hp,
            deref_some hs1.1]
          exact hl2
        · rw [hv2]
          have e : n.toNat - i = (n.toNat - (i + 1)) + 1 := by omega
          rw [e]
          simp
        · intro a ha hna
          rw [hfr2 a (by omega) (by
            intro y hy
            rcases List.mem_append.1 hy with hy | hy
            · exact hna y hy
            · simp only [List.mem_singleton] at hy
              subst hy
              simp only
              omega)]
          exact hfr1 a ha hna
    · refine ⟨h, res, rs, ?_, hr, ?_, le_refl _, fun _ _ _ => rfl⟩
      · cases fuel <;> simp [firstLoop, hlt]
      · have e : n.toNat - i = 0 := by omega
        simp [e]

theorem sliceLoop_spec (start stop : Int) {h : Heap α} {res : LinkedList}
    {rs src : List (Cell α)} {prev : Ptr} (hr : Rep h res rs) (hs : Seg h prev src none)
    (hd : ∀ x ∈ src, ∀ y ∈ rs, y.1 ≠ x.1) (fuel i : Nat) (hf : stop.toNat ≤ fuel + i) :
    ∃ h2 res2 rs2, sliceLoop start stop fuel h res i (firstOr src none) = .ok (h2, res2) ∧
      Rep h2 res2 rs2 ∧
      rs2.map Prod.snd = rs.map Prod.snd ++
        ((src.map Prod.snd).take (stop.toNat - i)).drop (start.toNat - i) ∧
      h.length ≤ h2.length ∧
      (∀ a, a < h.length → (∀ y ∈ rs, y.1 ≠ a) → h2[a]? = h[a]?) := by
  induction src generalizing h res rs prev fuel i with
  | nil =>
    refine ⟨h, res, rs, ?_, hr, by simp, le_refl _, fun _ _ _ => rfl⟩
    simp [sliceLoop]
  | cons c src ih =>
    by_cases hlt : (i : Int) < stop
    · cases fuel with
      | zero => omega
      | succ fuel =>
        have hclt : c.1 < h.length := lt_of_get hs.1
        have e : stop.toNat - i = (stop.toNat - (i + 1)) + 1 := by omega
        by_cases hge : start ≤ (i : Int)
        · obtain ⟨h1, res1, hp, hr1, hlen1, hfr1⟩ := push_beside hr c.2
          have hs1 : Seg h1 prev (c :: src) none :=
            seg_frame hs (fun x hx => hfr1 x.1 (seg_lt hs x hx) (hd x hx))
          have hd1 : ∀ x ∈ src, ∀ y ∈ rs ++ [(h.length, c.2)], y.1 ≠ x.1 := by
            intro x hx y hy
            rcases List.mem_append.1 hy with hy | hy
            · exact hd x (List.mem_cons_of_mem _ hx) y hy
            · simp only [List.mem_singleton] at hy
              subst hy
              have := seg_lt hs x (List.mem_cons_of_mem _ hx)
              simp only
              omega
          obtain ⟨h2, res2, rs2, hl2, hr2, hv2, hlen2, hfr2⟩ :=
            ih hr1 hs1.2 hd1 fuel (i + 1) (by omega)
          refine ⟨h2, res2, rs2, ?_, hr2, ?_, by omega, ?_⟩
          · simp only [firstOr_cons, sliceLoop, hlt, if_true, deref_some hs.1, ok_bind, hge,
              hp, deref_some hs1.1]
            exact hl2
          · rw [hv2, e]
            have e0 : start.toNat - i = 0 := by omega
            have e1 : start.toNat - (i + 1) = 0 := by omega
            simp [e0, e1]
          · intro a ha hna
            rw [hfr2 a (by omega) (by
              intro y hy
              rcases List.mem_append.1 hy with hy | hy
              · exact hna y hy
              · simp only [List.mem_singleton] at hy
                subst hy
                simp only
                omega)]
            exact hfr1 a ha hna
        · obtain ⟨h2, res2, rs2, hl2, hr2, hv2, hlen2, hfr2⟩ :=
            ih hr hs.2 (fun x hx => hd x (List.mem_cons_of_mem _ hx)) fuel (i + 1) (by omega)
          refine ⟨h2, res2, rs2, ?_, hr2, ?_, hlen2, hfr2⟩
          · simp only [firstOr_cons, sliceLoop, hlt, if_true, deref_some hs.1, ok_bind, hge,
              if_false]
            exact hl2
          · rw [hv2, e]
            have e0 : start.toNat - i = (start.toNat - (i + 1)) + 1 := by omega
            rw [e0]
            simp
    · refine ⟨h, res, rs, ?_, hr, ?_, le_refl _, fun _ _ _ => rfl⟩
      · cases fuel <;> simp [sliceLoop, hlt]
      · have e : stop.toNat - i = 0 := by omega
        simp [e]

theorem lastLoop_spec (n : Int) {h : Heap α} {res : LinkedList} {rs src : List (Cell α)}
    {nxt : Ptr} (hr : Rep h res rs) (hs : Seg h none src nxt)
    (hd : ∀ x ∈ src, ∀ y ∈ rs, y.1 ≠ x.1) (fuel i : Nat) (hf : n.toNat ≤ fuel + i) :
    ∃ h2 res2 rs2, lastLoop n fuel h res i (lastOr src none) = .ok (h2, res2) ∧
      Rep h2 res2 rs2 ∧
      rs2.map Prod.snd = rs.map Prod.snd ++ (src.map Prod.snd).reverse.take (n.toNat - i) ∧
      h.length ≤ h2.length ∧
      (∀ a, a < h.length → (∀ y ∈ rs, y.1 ≠ a) → h2[a]? = h[a]?) := by
  induction src using List.reverseRecOn generalizing h res rs nxt fuel i with
  | nil =>
    refine ⟨h, res, rs, ?_, hr, by simp, le_refl _, fun _ _ _ => rfl⟩
    simp [lastLoop]
  | append_singleton xs c ih =>
    by_cases hlt : (i : Int) < n
    · cases fuel with
      | zero => omega
      | succ fuel =>
        obtain ⟨h1, res1, hp, hr1, hlen1, hfr1⟩ := push_beside hr c.2
        have hs1 : Seg h1 none (xs ++ [c]) nxt :=
          seg_frame hs (fun x hx => hfr1 x.1 (seg_lt hs x hx) (hd x hx))
        have hseg := (seg_append xs [c] none nxt).1 hs
        have hseg1 := (seg_append xs [c] none nxt).1 hs1
        have hcell : h[c.1]? =
            some { Value := c.2, Next := nxt, Previous := lastOr xs none } := hseg.2.1
        have hcell1 : h1[c.1]? =
            some { Value := c.2, Next := nxt, Previous := lastOr xs none } := hseg1.2.1
        have hxs1 : Seg h1 none xs (some c.1) := hseg1.1
        have hd1 : ∀ x ∈ xs, ∀ y ∈ rs ++ [(h.length, c.2)], y.1 ≠ x.1 := by
          intro x hx y hy
          rcases List.mem_append.1 hy with hy | hy
          · exact hd x (by simp [hx]) y hy
          · simp only [List.mem_singleton] at hy
            subst hy
            have := seg_lt hs x (by simp [hx])
            simp only
            omega
        obtain ⟨h2, res2, rs2, hl2, hr2, hv2, hlen2, hfr2⟩ :=
          ih hr1 hxs1 hd1 fuel (i + 1) (by omega)
        refine ⟨h2, res2, rs2, ?_, hr2, ?_, by omega, ?_⟩
        · simp only [lastOr_concat, lastLoop, hlt, if_true, deref_some hcell, ok_bind, hp,
            deref_some hcell1]
          exact hl2
        · rw [hv2]
          have e : n.toNat - i = (n.toNat - (i + 1)) + 1 := by omega
          rw [e]
          simp
        · intro a ha hna
          rw [hfr2 a (by omega) (by
            intro y hy
            rcases List.mem_append.1 hy with hy | hy
            · exact hna y hy
            · simp only [List.mem_singleton] at hy
              subst hy
              simp only
              omega)]
          exact hfr1 a ha hna
    · refine ⟨h, res, rs, ?_, hr, ?_, le_refl _, fun _ _ _ => rfl⟩
      · rw [lastOr_concat]
        cases fuel <;> simp [lastLoop, hlt]
      · have e : n.toNat - i = 0 := by omega
        simp [e]

/-- What `Last` computes: on the list built by pushing `v1..vn`, `Last(k)` returns
a new list that enumerates as the last `min(k, n)` elements taken from the tail
backwards, `vn, v(n-1), ...`. -/
theorem last_is_reversed_suffix (h0 : Heap α) (vs : List (Any α)) (k : Int) :
    (do
      let (h, l) ← pushAll h0 zeroList vs
      let (h2, r) ← Last h l k
      let e ← Enumerate h2 r
      pure (e, r.Length)) =
      Except.ok (AnySlice.backed (vs.reverse.take k.toNat),
        ((min k.toNat vs.length : Nat) : Int)) := by
  obtain ⟨h, l, cs, hp, hr, hv⟩ := pushAll_rep (rep_zero h0) vs
  rw [List.nil_append] at hr
  obtain ⟨h2, r, rs, hl, hrr, hrv, _, hfr⟩ :=
    lastLoop_spec k (rep_zero h) hr.1.seg (by simp) k.toNat 0 (by omega)
  have hl2 : Last h l k = .ok (h2, r) := by
    unfold Last
    rw [hr.1.last]
    exact hl
  have hlen : r.Length = ((min k.toNat vs.length : Nat) : Int) := by
    rw [hrr.2]
    have := congrArg List.length hrv
    simp only [List.length_map, List.map_nil, List.nil_append, List.length_take,
      Nat.sub_zero, List.length_reverse] at this
    rw [this, ← hv]
    simp
  simp only [hp, ok_bind, hl2, enumerate_rep hrr, pure, Except.pure, hlen]
  rw [hrv, hv]
  simp

/-- Claim C8. Evaluation of the code where the claim fails: on the list built by
pushing 1, 2, 3 the list returned by `Last(2)` enumerates as `[3, 2]` (the claim
says `[2, 3]`), and the one returned by `Last(5)` as `[3, 2, 1]` (the claim says
`[1, 2, 3]`): the elements come out in reverse order. -/
theorem last_reverses_order :
    (do
      let (h, l) ← pushAll ([] : Heap Nat) zeroList [some 1, some 2, some 3]
      let (h2, r) ← Last h l 2
      let e ← Enumerate h2 r
      pure (e, r.Length)) = Except.ok (AnySlice.backed [some 3, some 2], (2 : Int)) ∧
    (do
      let (h, l) ← pushAll ([] : Heap Nat) zeroList [some 1, some 2, some 3]
      let (h2, r) ← Last h l 5
      let e ← Enumerate h2 r
      pure (e, r.Length)) =
      Except.ok (AnySlice.backed [some 3, some 2, some 1], (3 : Int)) :=
  ⟨last_is_reversed_suffix [] [some 1, some 2, some 3] 2,
    last_is_reversed_suffix [] [some 1, some 2, some 3] 5⟩

theorem rep_frame {h h2 : Heap α} {l : LinkedList} {cs : List (Cell α)} (hr : Rep h l cs)
    (hfr : ∀ a, a < h.length → h2[a]? = h[a]?) : Rep h2 l cs :=
  ⟨⟨seg_frame hr.1.seg (fun x hx => hfr x.1 (seg_lt hr.1.seg x hx)), hr.1.root, hr.1.last,
    hr.1.nodup⟩, hr.2⟩

/-- Claim C9. On the list built by pushing `v1..vn`, `First(k)` returns a new list
that enumerates as the first `min(k, n)` elements in their order (none when
`k <= 0`, all of them when `k > n`) and whose `Length` is that number; the
original list still enumerates as `v1..vn`. -/
theorem first_is_prefix (h0 : Heap α) (vs : List (Any α)) (k : Int) :
    (do
      let (h, l) ← pushAll h0 zeroList vs
      let (h2, r) ← First h l k
      let e ← Enumerate h2 r
      let orig ← Enumerate h2 l
      pure (e, r.Length, orig)) =
      Except.ok (AnySlice.backed (vs.take k.toNat), ((min k.toNat vs.length : Nat) : Int),
        AnySlice.backed vs) := by
  obtain ⟨h, l, cs, hp, hr, hv⟩ := pushAll_rep (rep_zero h0) vs
  rw [List.nil_append] at hr
  obtain ⟨h2, r, rs, hl, hrr, hrv, _, hfr⟩ :=
    firstLoop_spec k (rep_zero h) hr.1.seg (by simp) k.toNat 0 (by omega)
  have hr2 : Rep h2 l cs := rep_frame hr (fun a ha => hfr a ha (by simp))
  have hl2 : First h l k = .ok (h2, r) := by
    unfold First
    rw [hr.1.root]
    exact hl
  have hlen : r.Length = ((min k.toNat vs.length : Nat) : Int) := by
    rw [hrr.2]
    have := congrArg List.length hrv
    simp only [List.length_map, List.map_nil, List.nil_append, List.length_take,
      Nat.sub_zero] at this
    rw [this, ← hv]
    simp
  simp only [hp, ok_bind, hl2, enumerate_rep hrr, enumerate_rep hr2, pure, Except.pure, hlen]
  rw [hrv, hv]
  simp

/-- Claim C10. On the list built by pushing `v1..vn`, `Slice(start, end)` returns a
new list that enumerates as the elements at the positions `p` with
`max(start, 0) <= p < min(end, n)`, in their order, and whose `Length` is the
number of those elements; the original list still enumerates as `v1..vn`. -/
theorem slice_is_range (h0 : Heap α) (vs : List (Any α)) (start stop : Int) :
    (do
      let (h, l) ← pushAll h0 zeroList vs
      let (h2, r) ← Slice h l start stop
      let e ← Enumerate h2 r
      let orig ← Enumerate h2 l
      pure (e, r.Length, orig)) =
      Except.ok (AnySlice.backed ((vs.take stop.toNat).drop start.toNat),
        ((min stop.toNat vs.length - start.toNat : Nat) : Int), AnySlice.backed vs) := by
  obtain ⟨h, l, cs, hp, hr, hv⟩ := pushAll_rep (rep_zero h0) vs
  rw [List.nil_append] at hr
  obtain ⟨h2, r, rs, hl, hrr, hrv, _, hfr⟩ :=
    sliceLoop_spec (if start < 0 then 0 else start) stop (rep_zero h) hr.1.seg (by simp)
      stop.toNat 0 (by omega)
  have hst : (if start < 0 then 0 else start).toNat = start.toNat := by
    split <;> omega
  rw [hst] at hrv
  have hr2 : Rep h2 l cs := rep_frame hr (fun a ha => hfr a ha (by simp))
  have hl2 : Slice h l start stop = .ok (h2, r) := by
    unfold Slice
    rw [hr.1.root]
    exact hl
  have hlen : r.Length = ((min stop.toNat vs.length - start.toNat : Nat) : Int) := by
    rw [hrr.2]
    have := congrArg List.length hrv
    simp only [List.length_map, List.map_nil, List.nil_append, List.length_take,
      Nat.sub_zero, List.length_drop] at this
    rw [this, ← hv]
    simp
  simp only [hp, ok_bind, hl2, enumerate_rep hrr, enumerate_rep hr2, pure, Except.pure, hlen]
  rw [hrv, hv]
  simp

/-! ## The loop bounds taken from the source are never exhausted -/

theorem deref_fuel (h : Heap α) (p : Ptr) : deref h p ≠ .error .outOfFuel := by
  cases p with
  | none => simp [deref]
  | some a =>
    simp only [deref]
    split <;> simp

/-- The loop of `Enumerate` started with more fuel than free slots never reports
`outOfFuel`: it ends at nil or panics on the index first. -/
theorem enumerateLoop_fuel (h : Heap α) (fuel : Nat) (res : List (Any α)) (i : Nat) (p : Ptr)
    (hi : i ≤ res.length) (hf : res.length < fuel + i) :
    enumerateLoop h fuel res i p ≠ .error .outOfFuel := by
  induction fuel generalizing res i p with
  | zero => omega
  | succ fuel ih =>
    cases p with
    | none => simp [enumerateLoop]
    | some a =>
      simp only [enumerateLoop]
      cases hd : deref h (some a) with
      | error e =>
        simp only [error_bind, ne_eq, Except.error.injEq]
        intro he
        subst he
        exact deref_fuel h (some a) hd
      | ok nd =>
        simp only [ok_bind]
        by_cases hlt : i < res.length
        · simp only [hlt, if_true]
          exact ih _ _ _ (by simp; omega) (by simp; omega)
        · simp [hlt]

/-- The call `Enumerate` never reports `outOfFuel`. -/
theorem enumerate_fuel (h : Heap α) (l : LinkedList) :
    Enumerate h l ≠ .error .outOfFuel := by
  unfold Enumerate
  split
  · simp
  · split
    · simp
    · intro he
      cases hl : enumerateLoop h (l.Length.toNat + 1) (List.replicate l.Length.toNat none) 0
          l.root with
      | error e =>
        rw [hl] at he
        simp only [error_bind, Except.error.injEq] at he
        subst he
        exact enumerateLoop_fuel h _ _ 0 l.root (by simp) (by simp) hl
      | ok r =>
        rw [hl] at he
        simp at he

theorem store_fuel (h : Heap α) (p : Ptr) (f : GenericLink α → GenericLink α) :
    store h p f ≠ .error .outOfFuel := by
  cases p with
  | none => simp [store]
  | some a =>
    simp only [store]
    split <;> simp

theorem bind_fuel {β γ : Type} (x : Except Fault β) (f : β → Except Fault γ)
    (hx : x ≠ .error .outOfFuel) (hf : ∀ b, x = .ok b → f b ≠ .error .outOfFuel) :
    (x >>= f) ≠ .error .outOfFuel := by
  cases x with
  | error e =>
    simp only [error_bind, ne_eq, Except.error.injEq]
    intro he
    exact hx (by rw [he])
  | ok b => exact hf b rfl

theorem push_fuel (h : Heap α) (l : LinkedList) (v : Any α) :
    Push h l v ≠ .error .outOfFuel := by
  unfold Push
  simp only [alloc]
  split
  · simp
  · exact bind_fuel _ _ (store_fuel _ _ _) (fun _ _ =>
      bind_fuel _ _ (store_fuel _ _ _) (fun _ _ => by simp))

/-- The loop of `First` started with fuel `n - i` never reports `outOfFuel`. -/
theorem firstLoop_fuel (n : Int) (fuel : Nat) (h : Heap α) (res : LinkedList) (i : Nat)
    (p : Ptr) (hf : n.toNat ≤ fuel + i) :
    firstLoop n fuel h res i p ≠ .error .outOfFuel := by
  induction fuel generalizing h res i p with
  | zero =>
    cases p with
    | none => simp [firstLoop]
    | some a =>
      have hlt : ¬ ((i : Int) < n) := by omega
      simp [firstLoop, hlt]
  | succ fuel ih =>
    cases p with
    | none => simp [firstLoop]
    | some a =>
      by_cases hlt : (i : Int) < n
      · simp only [firstLoop, hlt, if_true]
        exact bind_fuel _ _ (deref_fuel _ _) (fun nd _ =>
          bind_fuel _ _ (push_fuel _ _ _) (fun s _ =>
            bind_fuel _ _ (deref_fuel _ _) (fun nd1 _ => ih _ _ _ _ (by omega))))
      · simp [firstLoop, hlt]

/-- The loop of `Last` started with fuel `n - i` never reports `outOfFuel`. -/
theorem lastLoop_fuel (n : Int) (fuel : Nat) (h : Heap α) (res : LinkedList) (i : Nat)
    (p : Ptr) (hf : n.toNat ≤ fuel + i) :
    lastLoop n fuel h res i p ≠ .error .outOfFuel := by
  induction fuel generalizing h res i p with
  | zero =>
    cases p with
    | none => simp [lastLoop]
    | some a =>
      have hlt : ¬ ((i : Int) < n) := by omega
      simp [lastLoop, hlt]
  | succ fuel ih =>
    cases p with
    | none => simp [lastLoop]
    | some a =>
      by_cases hlt : (i : Int) < n
      · simp only [lastLoop, hlt, if_true]
        exact bind_fuel _ _ (deref_fuel _ _) (fun nd _ =>
          bind_fuel _ _ (push_fuel _ _ _) (fun s _ =>
            bind_fuel _ _ (deref_fuel _ _) (fun nd1 _ => ih _ _ _ _ (by omega))))
      · simp [lastLoop, hlt]

/-- The loop of `Slice` started with fuel `end - i` never reports `outOfFuel`. -/
theorem sliceLoop_fuel (start stop : Int) (fuel : Nat) (h : Heap α) (res : LinkedList)
    (i : Nat) (p : Ptr) (hf : stop.toNat ≤ fuel + i) :
    sliceLoop start stop fuel h res i p ≠ .error .outOfFuel := by
  induction fuel generalizing h res i p with
  | zero =>
    cases p with
    | none => simp [sliceLoop]
    | some a =>
      have hlt : ¬ ((i : Int) < stop) := by omega
      simp [sliceLoop, hlt]
  | succ fuel ih =>
    cases p with
    | none => simp [sliceLoop]
    | some a =>
      by_cases hlt : (i : Int) < stop
      · simp only [sliceLoop, hlt, if_true]
        refine bind_fuel _ _ (deref_fuel _ _) (fun nd _ =>
          bind_fuel _ _ ?_ (fun s _ =>
            bind_fuel _ _ (deref_fuel _ _) (fun nd1 _ => ih _ _ _ _ (by omega))))
        split
        · exact push_fuel _ _ _
        · simp
      · simp [sliceLoop, hlt]

/-- The calls `First`, `Last` and `Slice` never report `outOfFuel`: the bound of
their loop condition is all the fuel they can use. -/
theorem first_last_slice_fuel (h : Heap α) (l : LinkedList) (n start stop : Int) :
    First h l n ≠ .error .outOfFuel ∧ Last h l n ≠ .error .outOfFuel ∧
      Slice h l start stop ≠ .error .outOfFuel :=
  ⟨firstLoop_fuel n _ h _ 0 _ (by omega), lastLoop_fuel n _ h _ 0 _ (by omega),
    sliceLoop_fuel _ stop _ h _ 0 _ (by omega)⟩

/-! ## Clear -/

/-- The loop of `Clear` over a well-formed segment ends, and leaves every node of
the segment with its value and both links nil; other nodes are not touched. -/
theorem clearLoop_seg {h : Heap α} {cs : List (Cell α)} {nxt : Ptr}
    (hs : Seg h none cs nxt) (hnd : (cs.map Prod.fst).Nodup) (fuel : Nat)
    (hf : cs.length < fuel) :
    ∃ h2, clearLoop fuel h (lastOr cs none) = .ok h2 ∧ h2.length = h.length ∧
      (∀ c ∈ cs, h2[c.1]? = some { Value := c.2, Next := none, Previous := none }) ∧
      (∀ a, (∀ c ∈ cs, c.1 ≠ a) → h2[a]? = h[a]?) := by
  induction cs using List.reverseRecOn generalizing h nxt fuel with
  | nil =>
    refine ⟨h, ?_, rfl, by simp, fun _ _ => rfl⟩
    cases fuel <;> rfl
  | append_singleton xs c ih =>
    cases fuel with
    | zero => simp at hf
    | succ fuel =>
      have hseg := (seg_append xs [c] none nxt).1 hs
      have hxs : Seg h none xs (some c.1) := hseg.1
      have hcell : h[c.1]? =
          some { Value := c.2, Next := nxt, Previous := lastOr xs none } := hseg.2.1
      have hxc : ∀ x ∈ xs, x.1 ≠ c.1 := nodup_concat_ne hnd
      have hclt : c.1 < h.length := lt_of_get hcell
      let h1 : Heap α := h.set c.1 { Value := c.2, Next := none, Previous := lastOr xs none }
      let h2 : Heap α := h1.set c.1 { Value := c.2, Next := none, Previous := none }
      have e1 : h1[c.1]? = some { Value := c.2, Next := none, Previous := lastOr xs none } :=
        get_set_same hclt
      have e2 : h2[c.1]? = some { Value := c.2, Next := none, Previous := none } :=
        get_set_same (by simp [h1]; exact hclt)
      have hfr : ∀ a, a ≠ c.1 → h2[a]? = h[a]? := by
        intro a ha
        rw [get_set_other _ (Ne.symm ha), get_set_other _ (Ne.symm ha)]
      have hxs2 : Seg h2 none xs (some c.1) :=
        seg_frame hxs (fun x hx => hfr x.1 (hxc x hx))
      obtain ⟨h3, hl3, hlen3, hcl3, hfr3⟩ :=
        ih hxs2 (nodup_of_concat hnd) fuel (by simp at hf; omega)
      refine ⟨h3, ?_, by rw [hlen3]; simp [h2, h1], ?_, ?_⟩
      · simp only [lastOr_concat, clearLoop, deref_some hcell, ok_bind]
        rw [store_some hcell, ok_bind, store_some e1, ok_bind]
        exact hl3
      · intro x hx
        rcases List.mem_append.1 hx with hx | hx
        · exact hcl3 x hx
        · simp only [List.mem_singleton] at hx
          subst hx
          rw [hfr3 x.1 (fun y hy => hxc y hy)]
          exact e2
      · intro a ha
        rw [hfr3 a (fun y hy => ha y (by simp [hy]))]
        exact hfr a (Ne.symm (ha c (by simp)))

/-- Calling `Clear` on a well-formed chain ends; it returns the list struct with
`Length` 0 and the same `root` and `last`. -/
theorem clear_chain {h : Heap α} {l : LinkedList} {cs : List (Cell α)}
    (hc : Chain h l cs) (fuel : Nat) (hf : cs.length < fuel) :
    ∃ h2, Clear fuel h l = .ok (h2, { l with Length := 0 }) ∧ h2.length = h.length ∧
      (∀ c ∈ cs, h2[c.1]? = some { Value := c.2, Next := none, Previous := none }) ∧
      (∀ a, (∀ c ∈ cs, c.1 ≠ a) → h2[a]? = h[a]?) := by
  obtain ⟨h2, hl2, hlen, hcl, hfr⟩ := clearLoop_seg hc.seg hc.nodup fuel hf
  refine ⟨h2, ?_, hlen, hcl, hfr⟩
  simp only [Clear, hc.last, hl2, ok_bind]

/-- Claim C11. On the list built by pushing `v1..vn`, `Clear` sets `Length` to 0
and a following `Enumerate` returns the empty slice. -/
theorem clear_then_enumerate (h0 : Heap α) (vs : List (Any α)) (fuel : Nat)
    (hf : vs.length < fuel) :
    (do
      let (h, l) ← pushAll h0 zeroList vs
      let (h2, l2) ← Clear fuel h l
      let e ← Enumerate h2 l2
      pure (l2.Length, e)) = Except.ok ((0 : Int), AnySlice.backed ([] : List (Any α))) := by
  obtain ⟨h, l, cs, hp, hr, hv⟩ := pushAll_rep (rep_zero h0) vs
  rw [List.nil_append] at hr
  have hlen : vs.length = cs.length := by rw [← hv]; simp
  obtain ⟨h2, hcl, _⟩ := clear_chain hr.1 fuel (by omega)
  simp only [hp, ok_bind, hcl, pure, Except.pure]
  simp [Enumerate]

theorem clear_then_enumerate_witness :
    ([some 1, some 2, some 3] : List (Any Nat)).length < 4 ∧
    (do
      let (h, l) ← pushAll ([] : Heap Nat) zeroList [some 1, some 2, some 3]
      let (h2, l2) ← Clear 4 h l
      let e ← Enumerate h2 l2
      pure (l2.Length, e)) = Except.ok ((0 : Int), AnySlice.backed ([] : List (Any Nat))) :=
  ⟨by decide, clear_then_enumerate [] [some 1, some 2, some 3] 4 (by decide)⟩

/-- What `Clear` does to `root` and `last`: on the list built by pushing
`v1..vn`, `Clear` returns the list struct with `root` and `last` as they were and
`Length` 0. -/
theorem clear_keeps_root_last (h0 : Heap α) (vs : List (Any α)) (fuel : Nat)
    (hf : vs.length < fuel) :
    ∃ h l h2, pushAll h0 zeroList vs = .ok (h, l) ∧
      Clear fuel h l = .ok (h2, { root := l.root, last := l.last, Length := 0 }) ∧
      (vs ≠ [] → l.root ≠ none ∧ l.last ≠ none) := by
  obtain ⟨h, l, cs, hp, hr, hv⟩ := pushAll_rep (rep_zero h0) vs
  rw [List.nil_append] at hr
  have hlen : vs.length = cs.length := by rw [← hv]; simp
  obtain ⟨h2, hcl, _⟩ := clear_chain hr.1 fuel (by omega)
  refine ⟨h, l, h2, hp, hcl, fun hne => ?_⟩
  have hcs : cs ≠ [] := by
    intro he
    subst he
    exact hne (by simpa using hv.symm)
  rw [hr.1.root, hr.1.last]
  exact ⟨fun he => hcs (firstOr_eq_none.1 he), fun he => hcs (lastOr_eq_none.1 he)⟩

/-- Claim C12. Evaluation of the code where the claim fails: on the list built by
pushing 1, `Clear` sets `Length` to 0 and leaves `root` and `last` pointing at
the node of 1 (the claim says both are nil). -/
theorem clear_leaves_root_and_last :
    (do
      let (h, l) ← pushAll ([] : Heap Nat) zeroList [some 1]
      let (_, l2) ← Clear 2 h l
      pure (l2.Length, l2.root, l2.last)) =
      Except.ok ((0 : Int), (some 0 : Ptr), (some 0 : Ptr)) := rfl

/-! ## ValueAt, Map, Filter, Reduce -/

theorem valueAtLoop_seg {h : Heap α} {cs : List (Cell α)} {prev : Ptr}
    (hs : Seg h prev cs none) (index : Int) (fuel i : Nat) (hf : cs.length < fuel) :
    valueAtLoop h index fuel i (firstOr cs none) =
      .ok (if (i : Int) ≤ index ∧ index < (i : Int) + cs.length then
        (cs.map Prod.snd).getD (index - i).toNat none else none) := by
  induction cs generalizing prev fuel i with
  | nil =>
    have : ¬ ((i : Int) ≤ index ∧ index < (i : Int) + ([] : List (Cell α)).length) := by
      simp
    rw [if_neg this]
    cases fuel <;> rfl
  | cons c cs ih =>
    cases fuel with
    | zero => simp at hf
    | succ fuel =>
      by_cases he : (i : Int) = index
      · simp only [firstOr_cons, valueAtLoop, he, if_true, deref_some hs.1, ok_bind]
        have : index ≤ index ∧ index < index + ((c :: cs).length : Int) := by
          simp only [List.length_cons, Nat.cast_add, Nat.cast_one]
          omega
        rw [if_pos this]
        simp
      · simp only [firstOr_cons, valueAtLoop, he, if_false, deref_some hs.1, ok_bind]
        rw [ih hs.2 fuel (i + 1) (by simpa using hf)]
        by_cases hlt : (i : Int) ≤ index ∧ index < (i : Int) + ((c :: cs).length : Int)
        · have h2 : ((i + 1 : Nat) : Int) ≤ index ∧
              index < ((i + 1 : Nat) : Int) + (cs.length : Int) := by
            simp only [List.length_cons, Nat.cast_add, Nat.cast_one] at hlt ⊢
            omega
          have e : (index - (i : Int)).toNat = (index - ((i + 1 : Nat) : Int)).toNat + 1 := by
            simp only [Nat.cast_add, Nat.cast_one]
            omega
          rw [if_pos hlt, if_pos h2, e]
          simp
        · have h2 : ¬ (((i + 1 : Nat) : Int) ≤ index ∧
              index < ((i + 1 : Nat) : Int) + (cs.length : Int)) := by
            simp only [List.length_cons, Nat.cast_add, Nat.cast_one] at hlt ⊢
            omega
          rw [if_neg hlt, if_neg h2]

/-- Claim C13. On the list built by pushing `v1..vn`, `ValueAt(index)` returns the
element at position `index` when `0 <= index < n` and nil otherwise; it has no
write access to heap or list. -/
theorem valueAt_in_and_out_of_range (h0 : Heap α) (vs : List (Any α)) (index : Int)
    (fuel : Nat) (hf : vs.length < fuel) :
    (do
      let (h, l) ← pushAll h0 zeroList vs
      ValueAt fuel h l index) =
      Except.ok (if 0 ≤ index ∧ index < (vs.length : Int) then vs.getD index.toNat none
        else none) := by
  obtain ⟨h, l, cs, hp, hr, hv⟩ := pushAll_rep (rep_zero h0) vs
  rw [List.nil_append] at hr
  have hlen : cs.length = vs.length := by rw [← hv]; simp
  simp only [hp, ok_bind, ValueAt, hr.1.root]
  rw [valueAtLoop_seg hr.1.seg index fuel 0 (by omega), hv, hlen]
  simp

theorem valueAt_in_and_out_of_range_witness :
    ([some 5, some 6, some 7] : List (Any Nat)).length < 4 ∧
    (do
      let (h, l) ← pushAll ([] : Heap Nat) zeroList [some 5, some 6, some 7]
      ValueAt 4 h l 2) = Except.ok (some 7) :=
  ⟨by decide, valueAt_in_and_out_of_range [] [some 5, some 6, some 7] 2 4 (by decide)⟩

theorem mapLoop_spec (fn : Any α → Int → Any α) {h : Heap α} {res : LinkedList}
    {rs src : List (Cell α)} {prev : Ptr} (hr : Rep h res rs) (hs : Seg h prev src none)
    (hd : ∀ x ∈ src, ∀ y ∈ rs, y.1 ≠ x.1) (fuel i : Nat) (hf : src.length < fuel) :
    ∃ h2 res2 rs2, mapLoop fn fuel h res i (firstOr src none) = .ok (h2, res2) ∧
      Rep h2 res2 rs2 ∧
      rs2.map Prod.snd = rs.map Prod.snd ++
        ((src.map Prod.snd).enumFrom i).map (fun p => fn p.2 (p.1 : Int)) ∧
      h.length ≤ h2.length ∧
      (∀ a, a < h.length → (∀ y ∈ rs, y.1 ≠ a) → h2[a]? = h[a]?) := by
  induction src generalizing h res rs prev fuel i with
  | nil =>
    refine ⟨h, res, rs, ?_, hr, by simp, le_refl _, fun _ _ _ => rfl⟩
    cases fuel <;> rfl
  | cons c src ih =>
    cases fuel with
    | zero => simp at hf
    | succ fuel =>
      obtain ⟨h1, res1, hp, hr1, hlen1, hfr1⟩ := push_beside hr (fn c.2 (i : Int))
      have hs1 : Seg h1 prev (c :: src) none :=
        seg_frame hs (fun x hx => hfr1 x.1 (seg_lt hs x hx) (hd x hx))
      have hd1 : ∀ x ∈ src, ∀ y ∈ rs ++ [(h.length, fn c.2 (i : Int))], y.1 ≠ x.1 := by
        intro x hx y hy
        rcases List.mem_append.1 hy with hy | hy
        · exact hd x (List.mem_cons_of_mem _ hx) y hy
        · simp only [List.mem_singleton] at hy
          subst hy
          have := seg_lt hs x (List.mem_cons_of_mem _ hx)
          simp only
          omega
      obtain ⟨h2, res2, rs2, hl2, hr2, hv2, hlen2, hfr2⟩ :=
        ih hr1 hs1.2 hd1 fuel (i + 1) (by simpa using hf)
      refine ⟨h2, res2, rs2, ?_, hr2, ?_, by omega, ?_⟩
      · simp only [firstOr_cons, mapLoop, deref_some hs.1, ok_bind, hp, deref_some hs1.1]
        exact hl2
      · rw [hv2]
        simp [List.enumFrom_cons]
      · intro a ha hna
        rw [hfr2 a (by omega) (by
          intro y hy
          rcases List.mem_append.1 hy with hy | hy
          · exact hna y hy
          · simp only [List.mem_singleton] at hy
            subst hy
            simp only
            omega)]
        exact hfr1 a ha hna

theorem filterLoop_spec (fn : Any α → Int → Bool) {h : Heap α} {res : LinkedList}
    {rs src : List (Cell α)} {prev : Ptr} (hr : Rep h res rs) (hs : Seg h prev src none)
    (hd : ∀ x ∈ src, ∀ y ∈ rs, y.1 ≠ x.1) (fuel i : Nat) (hf : src.length < fuel) :
    ∃ h2 res2 rs2, filterLoop fn fuel h res i (firstOr src none) = .ok (h2, res2) ∧
      Rep h2 res2 rs2 ∧
      rs2.map Prod.snd = rs.map Prod.snd ++
        (((src.map Prod.snd).enumFrom i).filter (fun p => fn p.2 (p.1 : Int))).map Prod.snd ∧
      h.length ≤ h2.length ∧
      (∀ a, a < h.length → (∀ y ∈ rs, y.1 ≠ a) → h2[a]? = h[a]?) := by
  induction src generalizing h res rs prev fuel i with
  | nil =>
    refine ⟨h, res, rs, ?_, hr, by simp, le_refl _, fun _ _ _ => rfl⟩
    cases fuel <;> rfl
  | cons c src ih =>
    cases fuel with
    | zero => simp at hf
    | succ fuel =>
      by_cases hk : fn c.2 (i : Int) = true
      · obtain ⟨h1, res1, hp, hr1, hlen1, hfr1⟩ := push_beside hr c.2
        have hs1 : Seg h1 prev (c :: src) none :=
          seg_frame hs (fun x hx => hfr1 x.1 (seg_lt hs x hx) (hd x hx))
        have hd1 : ∀ x ∈ src, ∀ y ∈ rs ++ [(h.length, c.2)], y.1 ≠ x.1 := by
          intro x hx y hy
          rcases List.mem_append.1 hy with hy | hy
          · exact hd x (List.mem_cons_of_mem _ hx) y hy
          · simp only [List.mem_singleton] at hy
            subst hy
            have := seg_lt hs x (List.mem_cons_of_mem _ hx)
            simp only
            omega
        obtain ⟨h2, res2, rs2, hl2, hr2, hv2, hlen2, hfr2⟩ :=
          ih hr1 hs1.2 hd1 fuel (i + 1) (by simpa using hf)
        refine ⟨h2, res2, rs2, ?_, hr2, ?_, by omega, ?_⟩
        · simp only [firstOr_cons, filterLoop, deref_some hs.1, ok_bind, hk, if_true, hp,
            deref_some hs1.1]
          exact hl2
        · rw [hv2]
          simp [List.enumFrom_cons, hk]
        · intro a ha hna
          rw [hfr2 a (by omega) (by
            intro y hy
            rcases List.mem_append.1 hy with hy | hy
            · exact hna y hy
            · simp only [List.mem_singleton] at hy
              subst hy
              simp only
              omega)]
          exact hfr1 a ha hna
      · obtain ⟨h2, res2, rs2, hl2, hr2, hv2, hlen2, hfr2⟩ :=
          ih hr hs.2 (fun x hx => hd x (List.mem_cons_of_mem _ hx)) fuel (i + 1)
            (by simpa using hf)
        refine ⟨h2, res2, rs2, ?_, hr2, ?_, hlen2, hfr2⟩
        · simp only [firstOr_cons, filterLoop, deref_some hs.1, ok_bind, hk,
            Bool.false_eq_true, if_false]
          exact hl2
        · rw [hv2]
          simp [List.enumFrom_cons, hk]

theorem reduceLoop_seg {h : Heap α} (fn : Any α → Int → Any α → Any α)
    {cs : List (Cell α)} {prev : Ptr} (hs : Seg h prev cs none) (fuel : Nat) (acc : Any α)
    (i : Nat) (hf : cs.length < fuel) :
    reduceLoop h fn fuel acc i (firstOr cs none) =
      .ok (((cs.map Prod.snd).enumFrom i).foldl (fun a p => fn p.2 (p.1 : Int) a) acc) := by
  induction cs generalizing prev fuel acc i with
  | nil => cases fuel <;> rfl
  | cons c cs ih =>
    cases fuel with
    | zero => simp at hf
    | succ fuel =>
      simp only [firstOr_cons, reduceLoop, deref_some hs.1, ok_bind]
      rw [ih hs.2 fuel _ (i + 1) (by simpa using hf)]
      simp [List.enumFrom_cons]

/-- Claim C14. On the list built by pushing `v1..vn`, `Map(fn)` returns a new list
that enumerates as `fn(v1, 0), fn(v2, 1), ..., fn(vn, n-1)` and whose `Length` is
`n`; the original list still enumerates as `v1..vn`. -/
theorem map_applies_fn_in_order (h0 : Heap α) (vs : List (Any α)) (fn : Any α → Int → Any α)
    (fuel : Nat) (hf : vs.length < fuel) :
    (do
      let (h, l) ← pushAll h0 zeroList vs
      let (h2, r) ← Map fuel fn h l
      let e ← Enumerate h2 r
      let orig ← Enumerate h2 l
      pure (e, r.Length, orig)) =
      Except.ok (AnySlice.backed (vs.enum.map (fun p => fn p.2 (p.1 : Int))),
        (vs.length : Int), AnySlice.backed vs) := by
  obtain ⟨h, l, cs, hp, hr, hv⟩ := pushAll_rep (rep_zero h0) vs
  rw [List.nil_append] at hr
  have hlen : cs.length = vs.length := by rw [← hv]; simp
  obtain ⟨h2, r, rs, hl, hrr, hrv, _, hfr⟩ :=
    mapLoop_spec fn (rep_zero h) hr.1.seg (by simp) fuel 0 (by omega)
  have hr2 : Rep h2 l cs := rep_frame hr (fun a ha => hfr a ha (by simp))
  have hl2 : Map fuel fn h l = .ok (h2, r) := by
    unfold Map
    rw [hr.1.root]
    exact hl
  rw [hv] at hrv
  simp only [List.map_nil, List.nil_append] at hrv
  have hrl : r.Length = (vs.length : Int) := by
    rw [hrr.2]
    have := congrArg List.length hrv
    simp only [List.length_map, List.enumFrom_length] at this
    rw [this]
  simp only [hp, ok_bind, hl2, enumerate_rep hrr, enumerate_rep hr2, pure, Except.pure, hrl,
    hrv, hv, List.enum]

theorem map_applies_fn_in_order_witness :
    ([some 1, some 2, some 3] : List (Any Int)).length < 4 ∧
    (do
      let (h, l) ← pushAll ([] : Heap Int) zeroList [some 1, some 2, some 3]
      let (h2, r) ← Map 4 (fun v _ => v.map (fun x => x * x)) h l
      let e ← Enumerate h2 r
      let orig ← Enumerate h2 l
      pure (e, r.Length, orig)) =
      Except.ok (AnySlice.backed [some 1, some 4, some 9], (3 : Int),
        AnySlice.backed [some 1, some 2, some 3]) :=
  ⟨by decide, map_applies_fn_in_order [] [some 1, some 2, some 3]
    (fun v _ => v.map (fun x => x * x)) 4 (by decide)⟩

/-- Claim C15. On the list built by pushing `v1..vn`, `Filter(fn)` returns a new
list that enumerates as the elements `v` at the positions `i` of the original
list with `fn(v, i)` true, in their order, and whose `Length` is the number of
them; the original list still enumerates as `v1..vn`. -/
theorem filter_keeps_selected (h0 : Heap α) (vs : List (Any α)) (fn : Any α → Int → Bool)
    (fuel : Nat) (hf : vs.length < fuel) :
    (do
      let (h, l) ← pushAll h0 zeroList vs
      let (h2, r) ← Filter fuel fn h l
      let e ← Enumerate h2 r
      let orig ← Enumerate h2 l
      pure (e, r.Length, orig)) =
      Except.ok
        (AnySlice.backed ((vs.enum.filter (fun p => fn p.2 (p.1 : Int))).map Prod.snd),
        (((vs.enum.filter (fun p => fn p.2 (p.1 : Int))).length : Nat) : Int),
        AnySlice.backed vs) := by
  obtain ⟨h, l, cs, hp, hr, hv⟩ := pushAll_rep (rep_zero h0) vs
  rw [List.nil_append] at hr
  have hlen : cs.length = vs.length := by rw [← hv]; simp
  obtain ⟨h2, r, rs, hl, hrr, hrv, _, hfr⟩ :=
    filterLoop_spec fn (rep_zero h) hr.1.seg (by simp) fuel 0 (by omega)
  have hr2 : Rep h2 l cs := rep_frame hr (fun a ha => hfr a ha (by simp))
  have hl2 : Filter fuel fn h l = .ok (h2, r) := by
    unfold Filter
    rw [hr.1.root]
    exact hl
  rw [hv] at hrv
  simp only [List.map_nil, List.nil_append] at hrv
  have hrl : r.Length =
      (((vs.enum.filter (fun p => fn p.2 (p.1 : Int))).length : Nat) : Int) := by
    rw [hrr.2]
    have := congrArg List.length hrv
    simp only [List.length_map] at this
    rw [this, List.enum]
  simp only [hp, ok_bind, hl2, enumerate_rep hrr, enumerate_rep hr2, pure, Except.pure, hrl,
    hrv, hv, List.enum]

theorem filter_keeps_selected_witness :
    ([some 1, some 2, some 3] : List (Any Int)).length < 4 ∧
    (do
      let (h, l) ← pushAll ([] : Heap Int) zeroList [some 1, some 2, some 3]
      let (h2, r) ← Filter 4 (fun _ i => decide (i ≠ 1)) h l
      let e ← Enumerate h2 r
      let orig ← Enumerate h2 l
      pure (e, r.Length, orig)) =
      Except.ok (AnySlice.backed [some 1, some 3], (2 : Int),
        AnySlice.backed [some 1, some 2, some 3]) :=
  ⟨by decide, filter_keeps_selected [] [some 1, some 2, some 3]
    (fun _ i => decide (i ≠ 1)) 4 (by decide)⟩

/-- Claim C16. On the list built by pushing `v1..vn`, `Reduce(fn, init)` returns
the left fold `a_n` with `a_0 = init` and `a_(i+1) = fn(v_(i+1), i, a_i)`, taken
head to tail; on the empty list that is `init`. -/
theorem reduce_is_left_fold (h0 : Heap α) (vs : List (Any α))
    (fn : Any α → Int → Any α → Any α) (init : Any α) (fuel : Nat) (hf : vs.length < fuel) :
    (do
      let (h, l) ← pushAll h0 zeroList vs
      Reduce fuel fn init h l) =
      Except.ok (vs.enum.foldl (fun a p => fn p.2 (p.1 : Int) a) init) := by
  obtain ⟨h, l, cs, hp, hr, hv⟩ := pushAll_rep (rep_zero h0) vs
  rw [List.nil_append] at hr
  have hlen : cs.length = vs.length := by rw [← hv]; simp
  simp only [hp, ok_bind, Reduce, hr.1.root]
  rw [reduceLoop_seg fn hr.1.seg fuel init 0 (by omega), hv, List.enum]

theorem reduce_is_left_fold_witness :
    ([some 1, some 2, some 3] : List (Any Int)).length < 4 ∧
    (do
      let (h, l) ← pushAll ([] : Heap Int) zeroList [some 1, some 2, some 3]
      Reduce 4 (fun v _ acc => v.bind (fun a => acc.map (fun b => b + a))) (some 0) h l) =
      Except.ok (some 6) :=
  ⟨by decide, reduce_is_left_fold [] [some 1, some 2, some 3]
    (fun v _ acc => v.bind (fun a => acc.map (fun b => b + a))) (some 0) 4 (by decide)⟩

/-! ## States reached through RemoveAt and Clear -/

/-- Claim C19. Evaluation of the code where the claim fails. After `Push(1)` and
`RemoveAt(0)` the list has `root` and `last` nil and `Length` 1: `Pop` and
`Dequeue` both dereference nil. After `Push(1)`, `Clear()` and `Push(2)` the
list has two linked nodes and `Length` 1: `Enumerate` indexes its slice out of
range. -/
theorem pop_dequeue_enumerate_can_panic :
    (do
      let (h, l) ← Push ([] : Heap Nat) zeroList (some 1)
      let (_, h1, l1) ← RemoveAt 2 h l 0
      Pop h1 l1) = Except.error Fault.nilDeref ∧
    (do
      let (h, l) ← Push ([] : Heap Nat) zeroList (some 1)
      let (_, h1, l1) ← RemoveAt 2 h l 0
      Dequeue h1 l1) = Except.error Fault.nilDeref ∧
    (do
      let (h, l) ← Push ([] : Heap Nat) zeroList (some 1)
      let (h1, l1) ← Clear 2 h l
      let (h2, l2) ← Push h1 l1 (some 2)
      Enumerate h2 l2) = Except.error Fault.indexOutOfRange :=
  ⟨rfl, rfl, rfl⟩

/-- Claim C20. Evaluation of the code where the claim fails. After pushing 1, 2,
then `Clear()` and `Push(3)`, `Enumerate` returns `[1]` (the claim says `[3]`),
with `Length` 1; after pushing 1, then `Clear()` and `Push(2)`, `Enumerate`
indexes its slice out of range (the claim says it returns `[2]`). -/
theorem clear_then_push_is_not_fresh :
    (do
      let (h, l) ← pushAll ([] : Heap Nat) zeroList [some 1, some 2]
      let (h1, l1) ← Clear 3 h l
      let (h2, l2) ← pushAll h1 l1 [some 3]
      let e ← Enumerate h2 l2
      pure (e, l2.Length)) = Except.ok (AnySlice.backed [some 1], (1 : Int)) ∧
    (do
      let (h, l) ← pushAll ([] : Heap Nat) zeroList [some 1]
      let (h1, l1) ← Clear 2 h l
      let (h2, l2) ← pushAll h1 l1 [some 2]
      Enumerate h2 l2) = Except.error Fault.indexOutOfRange :=
  ⟨rfl, rfl⟩

end GoList
